import Mathlib

/-!
# Balise_Tester core verification

Shallow embedding of the core of the Balise_Tester repository
(`balise_tester/core/packet_utils.py`, `balise_tester/core/config_manager.py`,
`balise_tester/widgets/simulation_widget.py`) and proofs about it.

Modelling conventions:
* Python strings are modelled as `List Char` (abbreviated `Str`), so that
  slicing, stripping and digit tests are ordinary list functions.
* Python ints are `Int`/`Nat`; Python floats (kilometre positions, speeds,
  timestamps) are modelled as exact rationals `ℚ`.
* Python dicts keyed by strings are association lists `List (Str × α)`
  read through `List.lookup` (first binding wins, as dict semantics give
  a single binding per key).
-/

abbrev Str := List Char

/-! ## Bit-field codec (`PacketUtils.int_to_bin` / `bin_to_int`)

`int_to_bin` is Python's `f"{val:0{bits}b}"[-bits:]`.  The binary `format`
of a negative integer keeps a leading minus sign (the sign counts toward
the padded width, zeros sit between sign and digits); `[-bits:]` takes the
last `bits` characters, and Python's `-0 == 0` makes `[-0:]` the whole
string. -/

/-- The character of the lowest binary digit of `n`. -/
def bitChar (n : Nat) : Char := if n % 2 = 1 then '1' else '0'

/-- Fuel-driven accumulator loop producing the binary digits of `n`
(most significant first) in front of `acc`; `fuel ≥ n` suffices. -/
def binDigitsAux : Nat → Nat → List Char → List Char
  | 0, _, acc => acc
  | fuel + 1, n, acc =>
    if n = 0 then acc else binDigitsAux fuel (n / 2) (bitChar n :: acc)

/-- Binary digits of `n`, most significant first; empty for `0`. -/
def binDigits (n : Nat) : List Char := binDigitsAux n n []

/-- Python `format(n, "b")` for a natural number (`"0"` for zero). -/
def binStr (n : Nat) : List Char := if n = 0 then ['0'] else binDigits n

/-- Left zero-padding to width `w` (no-op when the list is already longer). -/
def padZero (w : Nat) (l : List Char) : List Char :=
  List.replicate (w - l.length) '0' ++ l

/-- Python `f"{v:0{w}b}"`: binary format with zero-padded minimum width `w`;
for negatives the sign counts toward the width and the zeros sit between
the sign and the digits. -/
def pyFormatB (v : Int) (w : Nat) : List Char :=
  if v < 0 then '-' :: padZero (w - 1) (binStr (-v).toNat)
  else padZero w (binStr v.toNat)

/-- Python `s[-k:]` on a string: the last `k` characters — except that
`-0 == 0`, so `k = 0` yields the whole string. -/
def pySliceLast (k : Nat) (s : List Char) : List Char :=
  if k = 0 then s else s.drop (s.length - k)

/-- Python `PacketUtils.int_to_bin(value, bits)`: `f"{val:0{bits}b}"[-bits:]`.
The `int(value)` conversion is the identity on integer inputs (the
`ValueError` fallback to 0 concerns string inputs only). -/
def int_to_bin (value : Int) (bits : Nat) : List Char :=
  pySliceLast bits (pyFormatB value bits)

/-- Python `PacketUtils.bin_to_int(bin_str)`: 0 for the empty string, else
`int(bin_str, 2)`.  Modelled on binary-digit strings; on characters other
than `'0'`/`'1'` Python raises instead, which no claim exercises. -/
def bin_to_int (s : List Char) : Nat :=
  s.foldl (fun a c => 2 * a + (if c = '1' then 1 else 0)) 0

/-- Specification value of the codec: the `b`-character most-significant-
bit-first binary representation of `v % 2 ^ b`. -/
def natToBin (v : Nat) : Nat → List Char
  | 0 => []
  | b + 1 => natToBin (v / 2) b ++ [bitChar v]

/-! ### Lemmas about the digit expansion -/

theorem binDigitsAux_shift (fuel : Nat) : ∀ (n : Nat) (acc : List Char),
    binDigitsAux fuel n acc = binDigitsAux fuel n [] ++ acc := by
  induction fuel with
  | zero => intro n acc; simp [binDigitsAux]
  | succ fuel ih =>
    intro n acc
    by_cases h : n = 0
    · simp [binDigitsAux, h]
    · simp only [binDigitsAux, if_neg h]
      rw [ih (n / 2) (bitChar n :: acc), ih (n / 2) [bitChar n]]
      simp

theorem binDigitsAux_fuel (n : Nat) : ∀ (f₁ f₂ : Nat) (acc : List Char),
    n ≤ f₁ → n ≤ f₂ → binDigitsAux f₁ n acc = binDigitsAux f₂ n acc := by
  induction n using Nat.strong_induction_on with
  | _ n ih =>
    intro f₁ f₂ acc h₁ h₂
    by_cases h : n = 0
    · subst h
      cases f₁ <;> cases f₂ <;> simp [binDigitsAux]
    · obtain ⟨g₁, rfl⟩ : ∃ g, f₁ = g + 1 := ⟨f₁ - 1, by omega⟩
      obtain ⟨g₂, rfl⟩ : ∃ g, f₂ = g + 1 := ⟨f₂ - 1, by omega⟩
      simp only [binDigitsAux, if_neg h]
      exact ih (n / 2) (by omega) g₁ g₂ _ (by omega) (by omega)

/-- The defining recurrence of `binDigits` for positive arguments. -/
theorem binDigits_rec (n : Nat) (h : 1 ≤ n) :
    binDigits n = binDigits (n / 2) ++ [bitChar n] := by
  obtain ⟨m, rfl⟩ : ∃ m, n = m + 1 := ⟨n - 1, by omega⟩
  show binDigitsAux (m + 1) (m + 1) [] = _
  simp only [binDigitsAux, if_neg (by omega : ¬ m + 1 = 0)]
  rw [binDigitsAux_shift]
  congr 1
  exact binDigitsAux_fuel _ _ _ [] (by omega) (by omega)

theorem natToBin_length (v b : Nat) : (natToBin v b).length = b := by
  induction b generalizing v with
  | zero => simp [natToBin]
  | succ b ih => simp [natToBin, ih]

theorem natToBin_zero (b : Nat) : natToBin 0 b = List.replicate b '0' := by
  induction b with
  | zero => simp [natToBin]
  | succ b ih =>
    simp [natToBin, ih, bitChar, List.replicate_succ' (n := b)]

theorem mem_natToBin (v b : Nat) (c : Char) (h : c ∈ natToBin v b) :
    c = '0' ∨ c = '1' := by
  induction b generalizing v with
  | zero => simp [natToBin] at h
  | succ b ih =>
    simp only [natToBin, List.mem_append, List.mem_singleton] at h
    rcases h with h | h
    · exact ih _ h
    · unfold bitChar at h
      by_cases hm : v % 2 = 1 <;> simp [hm] at h <;> simp [h]

theorem bin_to_int_snoc (l : List Char) (c : Char) :
    bin_to_int (l ++ [c]) = 2 * bin_to_int l + (if c = '1' then 1 else 0) := by
  simp [bin_to_int, List.foldl_append]

theorem bin_to_int_natToBin (v b : Nat) :
    bin_to_int (natToBin v b) = v % 2 ^ b := by
  induction b generalizing v with
  | zero => simp [natToBin, bin_to_int, Nat.mod_one]
  | succ b ih =>
    rw [natToBin, bin_to_int_snoc, ih]
    have hbit : (if bitChar v = '1' then 1 else 0) = v % 2 := by
      unfold bitChar
      rcases Nat.mod_two_eq_zero_or_one v with hm | hm <;> simp [hm]
    rw [hbit]
    have hK : 0 < 2 ^ b := Nat.pos_pow_of_pos b (by omega)
    have hlt : 2 * (v / 2 % 2 ^ b) + v % 2 < 2 ^ (b + 1) := by
      have h1 : v / 2 % 2 ^ b < 2 ^ b := Nat.mod_lt _ hK
      have h2 : v % 2 < 2 := Nat.mod_lt _ (by omega)
      rw [pow_succ]
      omega
    have key : v % 2 ^ (b + 1) = 2 * (v / 2 % 2 ^ b) + v % 2 := by
      conv_lhs =>
        rw [show v = 2 * (v / 2) + v % 2 from (Nat.div_add_mod v 2).symm]
      conv_lhs =>
        rw [show v / 2 = 2 ^ b * (v / 2 / 2 ^ b) + v / 2 % 2 ^ b from
          (Nat.div_add_mod _ _).symm]
      rw [show 2 * (2 ^ b * (v / 2 / 2 ^ b) + v / 2 % 2 ^ b) + v % 2
            = 2 * (v / 2 % 2 ^ b) + v % 2 + 2 ^ (b + 1) * (v / 2 / 2 ^ b) by
          rw [pow_succ]; ring]
      rw [Nat.add_mul_mod_self_left]
      exact Nat.mod_eq_of_lt hlt
    exact key.symm

theorem natToBin_add_pow (v b : Nat) : natToBin (v + 2 ^ b) b = natToBin v b := by
  induction b generalizing v with
  | zero => simp [natToBin]
  | succ b ih =>
    simp only [natToBin]
    have hdiv : (v + 2 ^ (b + 1)) / 2 = v / 2 + 2 ^ b := by
      rw [pow_succ, Nat.add_mul_div_right _ _ (by omega : (0:Nat) < 2)]
    have hmod : bitChar (v + 2 ^ (b + 1)) = bitChar v := by
      unfold bitChar
      rw [pow_succ, Nat.add_mul_mod_self_right]
    rw [hdiv, hmod, ih]

theorem lt_two_pow_binStr (n : Nat) : n < 2 ^ (binStr n).length := by
  induction n using Nat.strong_induction_on with
  | _ n ih =>
    by_cases h0 : n = 0
    · subst h0; simp [binStr]
    · by_cases h1 : n = 1
      · subst h1
        have : binStr 1 = ['1'] := by decide
        rw [this]; simp
      · have h2 : 2 ≤ n := by omega
        have hrec : binStr n = binStr (n / 2) ++ [bitChar n] := by
          unfold binStr
          rw [if_neg h0, if_neg (by omega : ¬ n / 2 = 0),
            binDigits_rec n (by omega)]
        have ihh := ih (n / 2) (by omega)
        rw [hrec]
        simp only [List.length_append, List.length_singleton]
        rw [pow_succ]
        omega

theorem binStr_length_pos (m : Nat) : 1 ≤ (binStr m).length := by
  have h := lt_two_pow_binStr m
  by_contra hc
  push_neg at hc
  have h0 : (binStr m).length = 0 := by omega
  rw [h0, pow_zero] at h
  have hm : m = 0 := by omega
  rw [hm] at h0
  simp [binStr] at h0

theorem two_pow_binStr_le (n : Nat) (h : 1 ≤ n) :
    2 ^ ((binStr n).length - 1) ≤ n := by
  induction n using Nat.strong_induction_on with
  | _ n ih =>
    by_cases h1 : n = 1
    · subst h1
      have : binStr 1 = ['1'] := by decide
      rw [this]; simp
    · have h2 : 2 ≤ n := by omega
      have hrec : binStr n = binStr (n / 2) ++ [bitChar n] := by
        unfold binStr
        rw [if_neg (by omega : ¬ n = 0), if_neg (by omega : ¬ n / 2 = 0),
          binDigits_rec n (by omega)]
      have ihh := ih (n / 2) (by omega) (by omega)
      have hlen := binStr_length_pos (n / 2)
      rw [hrec]
      simp only [List.length_append, List.length_singleton]
      have hstep : 2 ^ ((binStr (n / 2)).length - 1 + 1) ≤ n := by
        rw [pow_succ]
        omega
      calc 2 ^ ((binStr (n / 2)).length + 1 - 1)
          = 2 ^ ((binStr (n / 2)).length - 1 + 1) := by congr 1; omega
        _ ≤ n := hstep

theorem binDigits_decomp (b : Nat) : ∀ (v : Nat), 2 ^ b ≤ v →
    binDigits v = binDigits (v / 2 ^ b) ++ natToBin v b := by
  induction b with
  | zero => intro v _; simp [natToBin]
  | succ b ih =>
    intro v hv
    have hp : 2 ≤ 2 ^ (b + 1) := by
      calc (2 : Nat) = 2 ^ 1 := by norm_num
        _ ≤ 2 ^ (b + 1) := Nat.pow_le_pow_right (by omega) (by omega)
    have h2 : 2 ≤ v := le_trans hp hv
    have hdiv : 2 ^ b ≤ v / 2 := by
      rw [Nat.le_div_iff_mul_le (by omega : (0:Nat) < 2)]
      rw [pow_succ] at hv; omega
    rw [binDigits_rec v (by omega), ih (v / 2) hdiv]
    simp only [natToBin, List.append_assoc]
    congr 2
    rw [Nat.div_div_eq_div_mul]
    congr 1
    rw [pow_succ, Nat.mul_comm]

theorem natToBin_pad (b : Nat) : ∀ (v : Nat), 1 ≤ b → v < 2 ^ b →
    natToBin v b = padZero b (binStr v) := by
  induction b with
  | zero => intro v h; omega
  | succ b ih =>
    intro v _ hv
    by_cases hb0 : b = 0
    · subst hb0
      interval_cases v <;> decide
    · by_cases hv1 : v ≤ 1
      · interval_cases v
        · rw [natToBin_zero]
          show _ = List.replicate (b + 1 - 1) '0' ++ ['0']
          rw [List.replicate_succ' (n := b)]
          simp
        · have h1 : binStr 1 = ['1'] := by decide
          show natToBin 0 b ++ [bitChar 1] = _
          rw [natToBin_zero, h1]
          have : bitChar 1 = '1' := by decide
          rw [this]
          show _ = List.replicate (b + 1 - 1) '0' ++ ['1']
          simp
      · have h2 : 2 ≤ v := by omega
        have hrec : binStr v = binStr (v / 2) ++ [bitChar v] := by
          unfold binStr
          rw [if_neg (by omega : ¬ v = 0), if_neg (by omega : ¬ v / 2 = 0),
            binDigits_rec v (by omega)]
        have hv2 : v / 2 < 2 ^ b := by
          rw [pow_succ] at hv
          omega
        show natToBin (v / 2) b ++ [bitChar v] = _
        rw [ih (v / 2) (by omega) hv2, hrec]
        unfold padZero
        simp only [List.length_append, List.length_singleton]
        rw [show b + 1 - ((binStr (v / 2)).length + 1)
              = b - (binStr (v / 2)).length by omega]
        simp

/-- On non-negative inputs `int_to_bin` computes exactly the
`bits`-character binary representation of `value % 2 ^ bits`. -/
theorem int_to_bin_eq_natToBin (value : Int) (bits : Nat)
    (hv : 0 ≤ value) (hb : 1 ≤ bits) :
    int_to_bin value bits = natToBin value.toNat bits := by
  set n := value.toNat with hn
  unfold int_to_bin pyFormatB pySliceLast
  rw [if_neg (by omega : ¬ value < 0), if_neg (by omega : ¬ bits = 0)]
  by_cases hc : (binStr n).length ≤ bits
  · have hlt : n < 2 ^ bits :=
      lt_of_lt_of_le (lt_two_pow_binStr n) (Nat.pow_le_pow_right (by omega) hc)
    have hlp : (padZero bits (binStr n)).length = bits := by
      unfold padZero; simp; omega
    rw [hlp]
    simp only [Nat.sub_self, List.drop_zero]
    exact (natToBin_pad bits n hb hlt).symm
  · push_neg at hc
    have hn1 : 1 ≤ n := by
      by_contra hn0
      have : n = 0 := by omega
      rw [this] at hc
      simp [binStr] at hc
      omega
    have hge : 2 ^ bits ≤ n := by
      have h1 : bits ≤ (binStr n).length - 1 := by omega
      calc 2 ^ bits ≤ 2 ^ ((binStr n).length - 1) :=
            Nat.pow_le_pow_right (by omega) h1
        _ ≤ n := two_pow_binStr_le n hn1
    have hpz : padZero bits (binStr n) = binStr n := by
      unfold padZero
      rw [show bits - (binStr n).length = 0 by omega]
      simp
    rw [hpz]
    have hbs : binStr n = binDigits (n / 2 ^ bits) ++ natToBin n bits := by
      rw [binStr, if_neg (by omega : ¬ n = 0)]
      exact binDigits_decomp bits n hge
    rw [hbs]
    have hlen : (binDigits (n / 2 ^ bits) ++ natToBin n bits).length - bits
        = (binDigits (n / 2 ^ bits)).length := by
      simp [natToBin_length]
    rw [hlen]
    have := List.drop_left (binDigits (n / 2 ^ bits)) (natToBin n bits)
    exact this

theorem int_to_bin_length (value : Int) (bits : Nat)
    (hv : 0 ≤ value) (hb : 1 ≤ bits) : (int_to_bin value bits).length = bits := by
  rw [int_to_bin_eq_natToBin value bits hv hb, natToBin_length]

/-! ## Packet schema registry (`PACKET_DEFS`) and packet codec -/

/-- First-order rendering of the presence-condition lambdas in
`PACKET_DEFS`: every condition in the source is either
`lambda d: d.get(F) == k` (`eqc F k`) or `lambda d: False` (`never`). -/
inductive Cond where
  | eqc (field : Str) (value : Nat)
  | never
deriving DecidableEq, Repr

/-- One field of a packet definition (named `Field` in spirit of the source
dicts; `Field` itself is taken by Mathlib).  The `desc` strings (display only)
and the `optional` flag (template population only) play no role in
`encode_packet`/`decode_packet` and are omitted. -/
structure PacketField where
  name : Str
  len : Nat
  val : Option Nat := none
  cond : Option Cond := none
deriving DecidableEq, Repr

/-- Evaluate a presence condition against a field map: Python
`d.get(F) == k` — a missing key yields `None`, unequal to any integer. -/
def evalCond (c : Cond) (m : List (Str × Nat)) : Bool :=
  match c with
  | .eqc f k => m.lookup f == some k
  | .never => false

/-- A field is present if it has no condition or its condition holds. -/
def condHolds (m : List (Str × Nat)) (f : PacketField) : Bool :=
  match f.cond with
  | none => true
  | some c => evalCond c m

/-- The value a field encodes: its fixed value if declared, else the
caller-supplied value, defaulting to 0 (`processed_data.get(name, 0)`). -/
def fieldVal (V : List (Str × Nat)) (f : PacketField) : Nat :=
  match f.val with
  | some v => v
  | none => (V.lookup f.name).getD 0

/-- Encoding loop of `encode_packet`: per field, check the condition
against the full input `data`, then append the field's bits. -/
def encodeFields (V : List (Str × Nat)) : List PacketField → List Char
  | [] => []
  | f :: rest =>
    (if condHolds V f then int_to_bin (fieldVal V f) f.len else [])
      ++ encodeFields V rest

/-- Decoding loop of `decode_packet`: per field, check the condition
against the fields already decoded; stop (returning the accumulator) as
soon as a present field would read past the end of the bitstring. -/
def decodeFields : List PacketField → List Char → List (Str × Nat) → List (Str × Nat)
  | [], _, acc => acc
  | f :: rest, s, acc =>
    if condHolds acc f then
      if f.len ≤ s.length then
        decodeFields rest (s.drop f.len) (acc ++ [(f.name, bin_to_int (s.take f.len))])
      else acc
    else decodeFields rest s acc

/-- The `ETCS-5` entry of `PACKET_DEFS`. -/
def etcs5_def : List PacketField := [
    { name := "NID_PACKET".toList, len := 8, val := some 5 },
    { name := "Q_DIR".toList, len := 2 },
    { name := "Q_SCALE".toList, len := 2 },
    { name := "D_LINK".toList, len := 15 },
    { name := "Q_NEWCOUNTRY".toList, len := 1 },
    { name := "NID_C".toList, len := 10, cond := some (.eqc "Q_NEWCOUNTRY".toList 1) },
    { name := "NID_BG".toList, len := 14 },
    { name := "Q_LINKORIENTATION".toList, len := 1 },
    { name := "Q_LINKREACTION".toList, len := 2 },
    { name := "Q_LOCACC".toList, len := 6 },
    { name := "N_ITER".toList, len := 5 }]

/-- The `CTCS-1` entry of `PACKET_DEFS`. -/
def ctcs1_def : List PacketField := [
    { name := "NID_XUSER".toList, len := 9, val := some 1 },
    { name := "Q_DIR".toList, len := 2 },
    { name := "Q_SCALE".toList, len := 2 },
    { name := "NID_SIGNAL".toList, len := 4 },
    { name := "NID_FREQUENCY".toList, len := 5 },
    { name := "D_SIGNAL".toList, len := 15 },
    { name := "L_SECTION".toList, len := 15 },
    { name := "N_ITER".toList, len := 5 }]

/-- The `ETCS-21` entry of `PACKET_DEFS`. -/
def etcs21_def : List PacketField := [
    { name := "NID_PACKET".toList, len := 8, val := some 21 },
    { name := "Q_DIR".toList, len := 2 },
    { name := "Q_SCALE".toList, len := 2 },
    { name := "D_GRADIENT".toList, len := 15 },
    { name := "Q_GDIR".toList, len := 1 },
    { name := "G_A".toList, len := 8 },
    { name := "N_ITER".toList, len := 5 }]

/-- The `ETCS-27` entry of `PACKET_DEFS`. -/
def etcs27_def : List PacketField := [
    { name := "NID_PACKET".toList, len := 8, val := some 27 },
    { name := "Q_DIR".toList, len := 2 },
    { name := "Q_SCALE".toList, len := 2 },
    { name := "D_STATIC".toList, len := 15 },
    { name := "V_STATIC".toList, len := 7 },
    { name := "Q_FRONT".toList, len := 1 },
    { name := "NC_DIFF".toList, len := 4, val := some 0 },
    { name := "V_DIFF".toList, len := 7, cond := some .never },
    { name := "N_ITER".toList, len := 5 }]

/-- The `ETCS-41` entry of `PACKET_DEFS`. -/
def etcs41_def : List PacketField := [
    { name := "NID_PACKET".toList, len := 8, val := some 41 },
    { name := "Q_DIR".toList, len := 2 },
    { name := "Q_SCALE".toList, len := 2 },
    { name := "D_LEVELTR".toList, len := 15 },
    { name := "M_LEVELTR".toList, len := 3 },
    { name := "NID_STM".toList, len := 8, cond := some (.eqc "M_LEVELTR".toList 1) },
    { name := "L_ACKLEVELTR".toList, len := 15 },
    { name := "N_ITER".toList, len := 5 }]

/-- The `CTCS-2` entry of `PACKET_DEFS`. -/
def ctcs2_def : List PacketField := [
    { name := "NID_XUSER".toList, len := 9, val := some 2 },
    { name := "Q_DIR".toList, len := 2 },
    { name := "Q_SCALE".toList, len := 2 },
    { name := "V_TSR".toList, len := 7 },
    { name := "D_TSR".toList, len := 15 },
    { name := "L_TSR".toList, len := 15 },
    { name := "L_TSRarea".toList, len := 15 },
    { name := "N_ITER".toList, len := 5 }]

/-- The `CTCS-4` entry of `PACKET_DEFS`. -/
def ctcs4_def : List PacketField := [
    { name := "NID_XUSER".toList, len := 9, val := some 4 },
    { name := "Q_DIR".toList, len := 2 },
    { name := "Q_SCALE".toList, len := 2 },
    { name := "D_TURNOUT".toList, len := 15 },
    { name := "V_TURNOUT".toList, len := 7 }]

/-- The `CTCS-5` entry of `PACKET_DEFS`. -/
def ctcs5_def : List PacketField := [
    { name := "NID_XUSER".toList, len := 9, val := some 5 },
    { name := "Q_DIR".toList, len := 2 },
    { name := "Q_STOP".toList, len := 1 }]

/-- The `ETCS-68` entry of `PACKET_DEFS`. -/
def etcs68_def : List PacketField := [
    { name := "NID_PACKET".toList, len := 8, val := some 68 },
    { name := "Q_DIR".toList, len := 2 },
    { name := "Q_SCALE".toList, len := 2 },
    { name := "Q_TRACKINIT".toList, len := 1 },
    { name := "D_TRACKINIT".toList, len := 15, cond := some (.eqc "Q_TRACKINIT".toList 1) },
    { name := "M_TRACKCOND".toList, len := 4, cond := some (.eqc "Q_TRACKINIT".toList 0) },
    { name := "D_TRACKCOND".toList, len := 15, cond := some (.eqc "Q_TRACKINIT".toList 0) },
    { name := "L_TRACKCOND".toList, len := 15, cond := some (.eqc "Q_TRACKINIT".toList 0) },
    { name := "N_ITER".toList, len := 5, cond := some (.eqc "Q_TRACKINIT".toList 0) }]

/-- The `ETCS-79` entry of `PACKET_DEFS`. -/
def etcs79_def : List PacketField := [
    { name := "NID_PACKET".toList, len := 8, val := some 79 },
    { name := "Q_DIR".toList, len := 2 },
    { name := "Q_SCALE".toList, len := 2 },
    { name := "Q_NEWCOUNTRY".toList, len := 1 },
    { name := "NID_C".toList, len := 10, cond := some (.eqc "Q_NEWCOUNTRY".toList 1) },
    { name := "M_POSITION".toList, len := 20 },
    { name := "Q_MPOSITION".toList, len := 1 },
    { name := "D_POSOFF".toList, len := 15 },
    { name := "N_ITER".toList, len := 5 }]

/-- The packet definition table `PACKET_DEFS` of `packet_utils.py`. -/
def PACKET_DEFS : List (Str × List PacketField) := [
  ("ETCS-5".toList, etcs5_def),
  ("CTCS-1".toList, ctcs1_def),
  ("ETCS-21".toList, etcs21_def),
  ("ETCS-27".toList, etcs27_def),
  ("ETCS-41".toList, etcs41_def),
  ("CTCS-2".toList, ctcs2_def),
  ("CTCS-4".toList, ctcs4_def),
  ("CTCS-5".toList, ctcs5_def),
  ("ETCS-68".toList, etcs68_def),
  ("ETCS-79".toList, etcs79_def)]

/-- Python `encode_packet(packet_name, data)`: empty string for unknown names. -/
def encode_packet (name : Str) (data : List (Str × Nat)) : List Char :=
  match PACKET_DEFS.lookup name with
  | none => []
  | some defs => encodeFields data defs

/-- Result of `decode_packet`: a field map for known packets, the
raw-passthrough record `{"raw": bin_str}` for unknown names. -/
inductive DecodeResult where
  | fields (m : List (Str × Nat))
  | raw (s : List Char)
deriving DecidableEq, Repr

/-- Python `decode_packet(packet_name, bin_str)`. -/
def decode_packet (name : Str) (s : List Char) : DecodeResult :=
  match PACKET_DEFS.lookup name with
  | none => .raw s
  | some defs => .fields (decodeFields defs s [])

/-- Look a decoded field up in a `DecodeResult`. -/
def DecodeResult.find (r : DecodeResult) (k : Str) : Option Nat :=
  match r with
  | .fields m => m.lookup k
  | .raw _ => none

/-! ### Round-trip analysis helpers (specification-side, for C1) -/

/-- The list of bindings `decode_packet` is expected to recover from
`encode_packet`'s output: one binding per present field, carrying the
value that was encoded. -/
def expected (V : List (Str × Nat)) : List PacketField → List (Str × Nat)
  | [] => []
  | f :: rest =>
    (if condHolds V f then [(f.name, fieldVal V f)] else []) ++ expected V rest

/-- The decode-time accumulator `acc` decides `f`'s condition exactly as
the encode-time input `V` does: the controlling field is bound in `acc`
to the value `V` supplies for it (default 0), and if `V` does not supply
it the comparison constant is nonzero (so both sides see `False`). -/
def condAgree (V acc : List (Str × Nat)) (f : PacketField) : Prop :=
  match f.cond with
  | none => True
  | some .never => True
  | some (.eqc F k) =>
    acc.lookup F = some ((V.lookup F).getD 0) ∧ (V.lookup F = none → k ≠ 0)

/-- Invariant: `condAgree` holds at every field of the schema, with the accumulator
evolving the way decoding evolves it on `encode_packet`'s output. -/
def CondsOK (V : List (Str × Nat)) : List (Str × Nat) → List PacketField → Prop
  | _, [] => True
  | acc, f :: rest =>
    condAgree V acc f ∧
      CondsOK V (if condHolds V f then acc ++ [(f.name, fieldVal V f)] else acc) rest

/-! ## Group assignment (`ConfigManager.process_balise_groups`) -/

/-- Characters stripped by Python's default `str.strip()` (ASCII
whitespace; exotic Unicode whitespace is outside the model). -/
def pyIsSpace (c : Char) : Bool :=
  c = ' ' ∨ c = '\t' ∨ c = '\n' ∨ c = '\r' ∨ c = '\x0b' ∨ c = '\x0c'

/-- Python `str.strip()`: drop leading and trailing whitespace. -/
def pyStrip (s : Str) : Str :=
  ((s.dropWhile pyIsSpace).reverse.dropWhile pyIsSpace).reverse

/-- Python `str.isdigit()` (ASCII digits; Unicode digit characters are
outside the model): nonempty and all characters are digits. -/
def pyIsDigit (s : Str) : Bool :=
  !s.isEmpty && s.all Char.isDigit

/-- Decimal value of a digit string (what `int(s)` returns on them). -/
def natOfDigits (s : Str) : Nat :=
  s.foldl (fun a c => 10 * a + (c.toNat - '0'.toNat)) 0

/-- The decimal digit characters. -/
def decDigitChar (d : Nat) : Char :=
  if d = 0 then '0' else if d = 1 then '1' else if d = 2 then '2'
  else if d = 3 then '3' else if d = 4 then '4' else if d = 5 then '5'
  else if d = 6 then '6' else if d = 7 then '7' else if d = 8 then '8'
  else '9'

/-- Fuel-driven decimal digit loop (like `binDigitsAux`). -/
def decDigitsAux : Nat → Nat → Str → Str
  | 0, _, acc => acc
  | fuel + 1, n, acc =>
    if n = 0 then acc else decDigitsAux fuel (n / 10) (decDigitChar (n % 10) :: acc)

/-- Python `str(n)` for a natural number. -/
def pyStrNat (n : Nat) : Str :=
  if n = 0 then ['0'] else decDigitsAux n n []

/-- Python `int(s)` on a string: optional sign and decimal digits after
stripping whitespace; `none` models `ValueError`.  (Underscore digit
separators are outside the model.) -/
def pyIntOpt (s : Str) : Option Int :=
  let t := pyStrip s
  if t = [] then none
  else if t.head? = some '-' then
    (if pyIsDigit (t.drop 1) then some (-(natOfDigits (t.drop 1) : Int)) else none)
  else if t.head? = some '+' then
    (if pyIsDigit (t.drop 1) then some ((natOfDigits (t.drop 1) : Int)) else none)
  else if pyIsDigit t then some ((natOfDigits t : Int)) else none

/-- The balise-record fields read and written by
`ConfigManager.process_balise_groups`.  The Python records are open
dicts; the remaining keys are untouched by grouping and omitted. -/
structure Balise where
  name : Str := []
  father_balise : Str := []
  sub_id : Str := []
  n_pig : Str := []
  n_total : Str := []
  q_link : Str := []
deriving DecidableEq, Repr

/-- Does the record belong to the group keyed by `f`? -/
def fatherEq (f : Str) (b : Balise) : Bool := pyStrip b.father_balise = f

/-- The numeric value of a record's `sub_id`, when it has one (the
`sid.isdigit()` test of the source). -/
def inSid (b : Balise) : Option Nat :=
  if pyIsDigit (pyStrip b.sub_id) then some (natOfDigits (pyStrip b.sub_id))
  else none

/-- Update applied to records with empty `father_balise`. -/
def singleUpdate (b : Balise) : Balise :=
  { b with
    sub_id := ['0'], n_pig := ['0', '0', '0'], n_total := ['1'],
    q_link := ['0'] }

/-- Step 1 of a group: the set of numeric sub_ids already present
(Python builds a `set`; only membership matters). -/
def collectUsed (g : List Balise) : List Nat :=
  g.foldl (fun acc b =>
    let sid := pyStrip b.sub_id
    if pyIsDigit sid then natOfDigits sid :: acc else acc) []

/-- The loop `while next_id in used_ids: next_id += 1` (fuel-driven; the callers
pass fuel `used.length + 1`, which always suffices). -/
def findFree : Nat → Nat → List Nat → Nat
  | 0, n, _ => n
  | fuel + 1, n, used => if n ∈ used then findFree fuel (n + 1) used else n

/-- Step 2 of a group: give every member without a numeric `sub_id` the
smallest unused id, in roster order.  Returns the updated members and
the final used-id set (the Python `used_ids` set made explicit). -/
def assignPass : List Balise → List Nat → Nat → List Balise × List Nat
  | [], used, _ => ([], used)
  | b :: rest, used, next =>
    let sid := pyStrip b.sub_id
    if pyIsDigit sid then
      let p := assignPass rest used next
      (b :: p.1, p.2)
    else
      let n := findFree (used.length + 1) next used
      let p := assignPass rest (n :: used) n
      ({ b with sub_id := pyStrNat n } :: p.1, p.2)

/-- Step 3 of a group: set `n_total`, `n_pig` (the `f"{s_id:03b}"` of
`int(sub_id)`, `"000"` on `ValueError`) and `q_link` on a member. -/
def finalize (count : Nat) (b : Balise) : Balise :=
  let np := match pyIntOpt b.sub_id with
    | some i => pyFormatB i 3
    | none => ['0', '0', '0']
  { b with
    n_total := pyStrNat count, n_pig := np,
    q_link := if 2 ≤ count then ['1'] else ['0'] }

/-- Process one group: the body of the `for father_id, group in groups`
loop of `process_balise_groups`. -/
def processGroup (g : List Balise) : List Balise :=
  ((assignPass g (collectUsed g) 0).1).map (finalize g.length)

/-- Write the processed members of the group keyed by `f` back into the
roster: the Python loop mutates the shared dicts in place; functionally
the `k`-th roster record with that father becomes the `k`-th processed
record. -/
def writeBack (f : Str) (upd rs : List Balise) : List Balise :=
  match rs with
  | [] => []
  | b :: rest =>
    if fatherEq f b then
      match upd with
      | [] => b :: writeBack f [] rest
      | u :: us => u :: writeBack f us rest
    else b :: writeBack f upd rest

/-- One step of collecting the distinct non-empty father keys. -/
def fatherStep (acc : List Str) (b : Balise) : List Str :=
  if pyStrip b.father_balise = [] ∨ pyStrip b.father_balise ∈ acc then acc
  else acc ++ [pyStrip b.father_balise]

/-- The distinct non-empty father keys, in first-appearance order (the
iteration order of the Python `groups` dict). -/
def fathersOf (bs : List Balise) : List Str :=
  bs.foldl fatherStep []

/-- Process the group keyed by `f` inside the roster. -/
def applyGroup (bs : List Balise) (f : Str) : List Balise :=
  writeBack f (processGroup (bs.filter (fatherEq f))) bs

/-- Python `ConfigManager.process_balise_groups` (the in-place roster mutation
rendered functionally): singleton updates for fatherless records, then
per-group sub-id assignment and derived-field updates.  (The
`SimulationWidget._process_balise_ids` copy of this routine is identical
except that it does not write `n_pig`.) -/
def process_balise_groups (bs : List Balise) : List Balise :=
  (fathersOf bs).foldl applyGroup
    (bs.map (fun b => if pyStrip b.father_balise = [] then singleUpdate b else b))

/-! ## Simulation engine (`SimulationWidget`) -/

/-- Python `PacketUtils.get_q_scale_factor`: Q_SCALE code to scale factor. -/
def get_q_scale_factor (code : Nat) : ℚ :=
  if code = 0 then 1/10 else if code = 1 then 1 else if code = 2 then 10
  else 1

/-- One entry of `train["active_restrictions"]`. -/
structure Restr where
  type : Str
  start_km : ℚ
  end_km : Option ℚ
  speed : ℚ
deriving DecidableEq, Repr

/-- The train-state fields the claims exercise.  Python keeps them in an
open dict; kilometre positions, speeds and timestamps (seconds on a
common timeline) are modelled as exact rationals. -/
structure Train where
  name : Str := []
  schedule_managed : Bool := false
  start_station : Option Str := none
  end_station : Option Str := none
  start_loc : Option ℚ := none
  end_loc : Option ℚ := none
  dep_start : Option ℚ := none
  dep_time : Option ℚ := none
  leave_end : Option ℚ := none
  leave_time : Option ℚ := none
  current_location : ℚ := 0
  base_speed : ℚ := 0
  current_speed_limit : ℚ := 0
  active_restrictions : List Restr := []
deriving DecidableEq, Repr

/-- Python `SimulationWidget.check_restrictions`: drop restrictions whose end
kilometre has been passed, then cap the limit by every remaining
restriction whose start has been reached.  (`base_speed` is always
present in the model, so the `line_config` default is never consulted.) -/
def check_restrictions (t : Train) : Train :=
  let loc := t.current_location
  let valid := t.active_restrictions.filter (fun r =>
    match r.end_km with
    | some e => decide (loc ≤ e)
    | none => true)
  let base := t.base_speed
  let limit := valid.foldl (fun lim r =>
    if loc ≥ r.start_km ∧ r.speed < lim then r.speed else lim) base
  { t with active_restrictions := valid, current_speed_limit := limit }

/-- Extract the decoded field map of a `DecodeResult` (a raw-passthrough
record yields no integer fields, so every `data.get` falls back to its
default, as in Python). -/
def DecodeResult.fieldsOf : DecodeResult → List (Str × Nat)
  | .fields m => m
  | .raw _ => []

/-- Python `float(s)` on plain decimal literals: digits with an optional
fractional part (exponents, `inf`/`nan` and underscores are outside the
model); `none` models `ValueError`. -/
def parseUnsignedFloat (l : Str) : Option ℚ :=
  let intPart := l.takeWhile Char.isDigit
  let rest := l.dropWhile Char.isDigit
  match rest with
  | [] => if intPart = [] then none else some ((natOfDigits intPart : ℚ))
  | '.' :: frac =>
    if intPart = [] ∧ frac = [] then none
    else if frac.all Char.isDigit then
      some ((natOfDigits intPart : ℚ)
        + (natOfDigits frac : ℚ) / ((10 : ℚ) ^ frac.length))
    else none
  | _ => none

/-- Python `float(s)` with stripping and an optional sign. -/
def pyFloatOpt (s : Str) : Option ℚ :=
  let t := pyStrip s
  if t.head? = some '-' then (parseUnsignedFloat (t.drop 1)).map (fun q => -q)
  else if t.head? = some '+' then parseUnsignedFloat (t.drop 1)
  else parseUnsignedFloat t

/-- Python `SimulationWidget.handle_balise_pass`, applied to the effective
packet record already computed for the balise.  `eff` holds the balise's
string-valued fields; the kilometre location of the balise is passed
separately (a float in the same dict in Python).  A decode failure on a
non-binary telegram raises in Python and is swallowed, skipping that
packet's effect; the model is faithful on binary telegram strings, which
every claim supplies.  Logging is dropped, but whether any packet was
processed decides the legacy `speed_limit` fallback, as in the source. -/
def handle_balise_pass (line_max : ℚ) (eff : List (Str × Str)) (b_loc : ℚ)
    (t0 : Train) : Train :=
  -- 1. CTCS-5 (absolute stop): zero both speeds, clear restrictions
  let logged1 := (eff.lookup "CTCS-5".toList).isSome
  let t1 := if logged1 then
      { t0 with
        current_speed_limit := 0, base_speed := 0,
        active_restrictions := [] }
    else t0
  -- 2. CTCS-2 (temporary speed restriction): append a restriction window
  let step2 : Train × Bool := match eff.lookup "CTCS-2".toList with
    | some val =>
      if 8 < val.length then
        let data := (decode_packet "CTCS-2".toList val).fieldsOf
        let scale := get_q_scale_factor ((data.lookup "Q_SCALE".toList).getD 1)
        let v_tsr := (data.lookup "V_TSR".toList).getD 0 * 5
        let d_tsr := (data.lookup "D_TSR".toList).getD 0
        let l_tsr := (data.lookup "L_TSR".toList).getD 0
        let start_km := b_loc + ((d_tsr : ℚ) * scale / 1000)
        let end_km := start_km + ((l_tsr : ℚ) * scale / 1000)
        ({ t1 with active_restrictions := t1.active_restrictions
            ++ [⟨"CTCS-2".toList, start_km, some end_km, ((v_tsr : ℚ))⟩] }, true)
      else (t1, false)
    | none => (t1, false)
  let t2 := step2.1
  -- 3. ETCS-27 (static speed profile): D_STATIC is decoded but unused;
  -- both branches set base_speed immediately
  let step3 : Train × Bool := match eff.lookup "ETCS-27".toList with
    | some val =>
      if 8 < val.length then
        let data := (decode_packet "ETCS-27".toList val).fieldsOf
        let v_code := (data.lookup "V_STATIC".toList).getD 127
        let _d_static := (data.lookup "D_STATIC".toList).getD 0
        if v_code = 127 then ({ t2 with base_speed := line_max }, true)
        else ({ t2 with base_speed := ((v_code * 5 : Nat) : ℚ) }, true)
      else (t2, false)
    | none => (t2, false)
  let t3 := step3.1
  -- 4. legacy fallback when no packet was processed
  if logged1 ∨ step2.2 ∨ step3.2 then t3
  else match eff.lookup "speed_limit".toList with
    | some s =>
      if pyStrip s ≠ [] then
        match pyFloatOpt s with
        | some q => { t3 with base_speed := q }
        | none => t3
      else t3
    | none => t3

/-- The keys of `PACKET_TYPE_MAP` — the known packet-type column names
(the Chinese display values of the map are irrelevant here). -/
def PACKET_TYPE_MAP_keys : List Str := [
  "ETCS-5".toList, "CTCS-1".toList, "ETCS-21".toList, "ETCS-27".toList,
  "ETCS-41".toList, "ETCS-42".toList, "ETCS-44".toList, "ETCS-46".toList,
  "ETCS-68".toList, "ETCS-72".toList, "ETCS-79".toList, "ETCS-131".toList,
  "ETCS-132".toList, "ETCS-137".toList, "ETCS-254".toList, "CTCS-2".toList,
  "CTCS-4".toList, "CTCS-5".toList]

/-- Python `needle in haystack` on strings: substring test. -/
def pyIn (needle haystack : Str) : Bool := decide (needle <:+: haystack)

/-- Python `SimulationWidget._station_location`: the location of the first
station with the given name (`none` when absent or the name is `None`). -/
def station_location (stations : List (Str × ℚ)) (name : Option Str) :
    Option ℚ :=
  stations.findSome? (fun s => if some s.1 = name then some s.2 else none)

/-- Scheduled-train authorization: `current_dt >= target` and (no prior
pass, or the prior pass predates the target, or it was within 3 s). -/
def schedAuth (passTimes : List (Nat × ℚ)) (idx : Nat) (now : ℚ)
    (target : Option ℚ) : Bool :=
  match target with
  | some tl =>
    decide (now ≥ tl) &&
      (match passTimes.lookup idx with
       | none => true
       | some lp => decide (lp < tl) || decide (now - lp < 3))
  | none => false

/-- Manual-train authorization: no prior pass, or within 3 s of it. -/
def manualAuth (passTimes : List (Nat × ℚ)) (idx : Nat) (now : ℚ) : Bool :=
  match passTimes.lookup idx with
  | none => true
  | some lp => decide (now - lp < 3)

/-- One iteration of the train loop of
`SimulationWidget._get_effective_balise_packets`: does this train
authorize GREEN for the balise?  A manual train ending at this station
(`should_stop`) and an irrelevant train authorize nothing; since
`is_green` only ever turns true and the loop then breaks, the loop is
`List.any` over this predicate. -/
def trainAuth (stations : List (Str × ℚ)) (passTimes : List (Nat × ℚ))
    (idx : Nat) (b_name : Str) (b_loc : ℚ) (now : ℚ) (t : Train) : Bool :=
  let t_start := match t.start_loc with
    | some l => some l
    | none => station_location stations t.start_station
  let t_end := match t.end_loc with
    | some l => some l
    | none => station_location stations t.end_station
  let startCase := match t.start_station with
    | some s => !s.isEmpty && pyIn s b_name && pyIn "CZ".toList b_name
    | none => false
  let endCase := match t.end_station with
    | some s => !s.isEmpty && pyIn s b_name && pyIn "CZ".toList b_name
    | none => false
  if startCase then
    if t.schedule_managed then
      schedAuth passTimes idx now (t.dep_start.orElse (fun _ => t.dep_time))
    else manualAuth passTimes idx now
  else if endCase then
    if t.schedule_managed then
      schedAuth passTimes idx now (t.leave_end.orElse (fun _ => t.leave_time))
    else false
  else
    match t_start, t_end with
    | some a, some b =>
      if min a b < b_loc ∧ b_loc < max a b then
        if t.schedule_managed then
          schedAuth passTimes idx now (t.dep_start.orElse (fun _ => t.dep_time))
        else manualAuth passTimes idx now
      else false
    | _, _ => false

/-- Python `SimulationWidget._get_effective_balise_packets`: the authorization
state machine.  No CTCS-5 (or a blank one) means the full record; with
CTCS-5 configured the default is RED (drop every other known packet-type
key) unless some train authorizes GREEN (drop CTCS-5 and every
blank-valued field). -/
def get_effective_balise_packets (stations : List (Str × ℚ))
    (passTimes : List (Nat × ℚ)) (trains : List Train) (idx : Nat)
    (balise : List (Str × Str)) (b_loc : ℚ) (now : ℚ) : List (Str × Str) :=
  match balise.lookup "CTCS-5".toList with
  | none => balise
  | some v =>
    if pyStrip v = [] then balise
    else
      let b_name := (balise.lookup "name".toList).getD []
      if trains.any (trainAuth stations passTimes idx b_name b_loc now) then
        balise.filter (fun p =>
          (p.1 != "CTCS-5".toList) && !(pyStrip p.2).isEmpty)
      else
        balise.filter (fun p =>
          !(decide (p.1 ∈ PACKET_TYPE_MAP_keys) && (p.1 != "CTCS-5".toList)))

/-! ### Concrete scenario inputs used by the claim witnesses -/

/-- A CTCS-2 telegram carrying `Q_SCALE = 1`, `D_TSR = 0`, `L_TSR = 100`,
`V_TSR = 20` (70 bits). -/
def c4_telegram : Str :=
  encode_packet "CTCS-2".toList
    [("Q_SCALE".toList, 1), ("V_TSR".toList, 20), ("D_TSR".toList, 0),
     ("L_TSR".toList, 100)]

/-- An ETCS-27 telegram carrying `V_STATIC = 40`, `D_STATIC = 7` (44 bits). -/
def c6_telegram : Str :=
  encode_packet "ETCS-27".toList
    [("V_STATIC".toList, 40), ("D_STATIC".toList, 7)]

/-! ## Theorems

All claim theorems and their supporting lemmas follow; the definitions
above are complete for the claims under verification. -/

/-- C2 (counterexample): the claim quantifies over *every* integer value,
but Python's binary `format` keeps a minus sign for negative values, so
`int_to_bin(-1, 2)` is the two-character string `"-1"` — not a `{0,1}`
string — and differs from `int_to_bin(-1 + 2^2, 2) = "11"`.  This refutes
the claimed `v ↦ v + 2^b` invariance at `v = -1`, `b = 2`. -/
theorem c2_counterexample : int_to_bin (-1) 2 ≠ int_to_bin (-1 + 2 ^ 2) 2 := by
  decide

/-- C2 (amended: restricted to non-negative values): for every integer
`v ≥ 0` and every positive bit count `b`, `int_to_bin v b` is a string of
exactly `b` characters over `{0,1}`, namely the most-significant-bit-first
binary representation of `v % 2^b`, and encoding `v` and `v + 2^b` with
the same width yields identical bitstrings. -/
theorem c2_encodeField (v : Int) (b : Nat) (hv : 0 ≤ v) (hb : 1 ≤ b) :
    (int_to_bin v b).length = b ∧
    (∀ c ∈ int_to_bin v b, c = '0' ∨ c = '1') ∧
    int_to_bin v b = natToBin v.toNat b ∧
    bin_to_int (int_to_bin v b) = v.toNat % 2 ^ b ∧
    int_to_bin v b = int_to_bin (v + 2 ^ b) b := by
  have heq := int_to_bin_eq_natToBin v b hv hb
  refine ⟨?_, ?_, heq, ?_, ?_⟩
  · rw [heq, natToBin_length]
  · intro c hc
    rw [heq] at hc
    exact mem_natToBin _ _ _ hc
  · rw [heq, bin_to_int_natToBin]
  · have hpow : (0 : Int) < 2 ^ b := by positivity
    have hv2 : 0 ≤ v + 2 ^ b := by omega
    have heq2 := int_to_bin_eq_natToBin (v + 2 ^ b) b hv2 hb
    rw [heq, heq2]
    have hcast : ((2 : Int) ^ b) = ((2 ^ b : Nat) : Int) := by push_cast; ring
    have ht : (v + 2 ^ b).toNat = v.toNat + 2 ^ b := by omega
    rw [ht, natToBin_add_pow]

/-- Witness for C2 at `v = 5`, `b = 3`. -/
theorem c2_encodeField_witness :
    (0 : Int) ≤ 5 ∧ (1 : Nat) ≤ 3 ∧
      ((int_to_bin 5 3).length = 3 ∧
       (∀ c ∈ int_to_bin 5 3, c = '0' ∨ c = '1') ∧
       int_to_bin 5 3 = natToBin (5 : Int).toNat 3 ∧
       bin_to_int (int_to_bin 5 3) = (5 : Int).toNat % 2 ^ 3 ∧
       int_to_bin 5 3 = int_to_bin (5 + 2 ^ 3) 3) :=
  ⟨by norm_num, by norm_num, c2_encodeField 5 3 (by norm_num) (by norm_num)⟩

/-! ### Generic association-list and decoding lemmas -/

theorem lookup_mem {α β : Type} [BEq α] [LawfulBEq α] :
    ∀ (l : List (α × β)) (a : α) (b : β), l.lookup a = some b → (a, b) ∈ l := by
  intro l
  induction l with
  | nil => intro a b h; simp [List.lookup] at h
  | cons p rest ih =>
    intro a b h
    obtain ⟨k, v⟩ := p
    cases hk : a == k with
    | true =>
      simp only [List.lookup, hk] at h
      obtain rfl : v = b := by injection h
      have hak : a = k := eq_of_beq hk
      subst hak
      exact List.mem_cons_self _ _
    | false =>
      simp only [List.lookup, hk] at h
      exact List.mem_cons_of_mem _ (ih a b h)

theorem decode_skip (f : PacketField) (fs : List PacketField) (s : List Char)
    (acc : List (Str × Nat)) (hc : condHolds acc f = false) :
    decodeFields (f :: fs) s acc = decodeFields fs s acc := by
  simp [decodeFields, hc]

theorem decode_stop (f : PacketField) (fs : List PacketField) (s : List Char)
    (acc : List (Str × Nat)) (hc : condHolds acc f = true)
    (h : s.length < f.len) :
    decodeFields (f :: fs) s acc = acc := by
  simp [decodeFields, hc, show ¬ f.len ≤ s.length by omega]

theorem decode_go (f : PacketField) (fs : List PacketField) (s : List Char)
    (acc : List (Str × Nat)) (hc : condHolds acc f = true)
    (h : f.len ≤ s.length) :
    decodeFields (f :: fs) s acc
      = decodeFields fs (s.drop f.len)
          (acc ++ [(f.name, bin_to_int (s.take f.len))]) := by
  simp [decodeFields, hc, h]

/-- A decoding step across a well-formed chunk recovers the encoded value. -/
theorem decode_step (f : PacketField) (fs : List PacketField) (n : Nat)
    (rest : List Char) (acc : List (Str × Nat))
    (hc : condHolds acc f = true) (hb : 1 ≤ f.len) (hn : n < 2 ^ f.len) :
    decodeFields (f :: fs) (int_to_bin (n : Int) f.len ++ rest) acc
      = decodeFields fs rest (acc ++ [(f.name, n)]) := by
  have he : int_to_bin (n : Int) f.len = natToBin n f.len := by
    rw [int_to_bin_eq_natToBin _ _ (by positivity) hb]
    simp
  have hlen : (int_to_bin (n : Int) f.len).length = f.len := by
    rw [he, natToBin_length]
  have hle : f.len ≤ (int_to_bin (n : Int) f.len ++ rest).length := by
    simp [hlen]
  rw [decode_go f fs _ acc hc hle]
  have htake : (int_to_bin (n : Int) f.len ++ rest).take f.len
      = int_to_bin (n : Int) f.len := by
    have h := List.take_left (int_to_bin (n : Int) f.len) rest
    rwa [hlen] at h
  have hdrop : (int_to_bin (n : Int) f.len ++ rest).drop f.len = rest := by
    have h := List.drop_left (int_to_bin (n : Int) f.len) rest
    rwa [hlen] at h
  rw [htake, hdrop, he, bin_to_int_natToBin, Nat.mod_eq_of_lt hn]

/-- Decoding only ever appends to the accumulator. -/
theorem decode_extends (fs : List PacketField) :
    ∀ (s : List Char) (acc : List (Str × Nat)),
      ∃ t, decodeFields fs s acc = acc ++ t := by
  induction fs with
  | nil => intro s acc; exact ⟨[], by simp [decodeFields]⟩
  | cons f rest ih =>
    intro s acc
    by_cases hc : condHolds acc f
    · by_cases hl : f.len ≤ s.length
      · obtain ⟨t, ht⟩ := ih (s.drop f.len)
          (acc ++ [(f.name, bin_to_int (s.take f.len))])
        refine ⟨(f.name, bin_to_int (s.take f.len)) :: t, ?_⟩
        rw [decode_go f rest s acc hc hl, ht]
        simp
      · exact ⟨[], by rw [decode_stop f rest s acc hc (by omega)]; simp⟩
    · obtain ⟨t, ht⟩ := ih s acc
      exact ⟨t, by rw [decode_skip f rest s acc (by simpa using hc), ht]⟩

/-- Decoding a truncated bitstring yields a prefix (as a list of decoded
bindings) of the decoding of the full bitstring. -/
theorem decode_take_aux (fs : List PacketField) :
    ∀ (s : List Char) (n : Nat) (acc : List (Str × Nat)),
      ∃ k, decodeFields fs (s.take n) acc = (decodeFields fs s acc).take k := by
  induction fs with
  | nil =>
    intro s n acc
    exact ⟨acc.length, by simp [decodeFields]⟩
  | cons f rest ih =>
    intro s n acc
    by_cases hc : condHolds acc f
    · by_cases h1 : f.len ≤ (s.take n).length
      · have h2 : f.len ≤ s.length := le_trans h1 (by simp)
        have hn : f.len ≤ n := le_trans h1 (by simp)
        have htake : (s.take n).take f.len = s.take f.len := by
          rw [List.take_take]
          congr 1
          omega
        have hdrop : (s.take n).drop f.len = (s.drop f.len).take (n - f.len) := by
          rw [List.drop_take]
        obtain ⟨k, hk⟩ := ih (s.drop f.len) (n - f.len)
          (acc ++ [(f.name, bin_to_int (s.take f.len))])
        refine ⟨k, ?_⟩
        rw [decode_go f rest (s.take n) acc hc h1, decode_go f rest s acc hc h2,
          htake, hdrop, hk]
      · by_cases h2 : f.len ≤ s.length
        · obtain ⟨t, ht⟩ := decode_extends rest (s.drop f.len)
            (acc ++ [(f.name, bin_to_int (s.take f.len))])
          refine ⟨acc.length, ?_⟩
          rw [decode_stop f rest (s.take n) acc hc (by omega),
            decode_go f rest s acc hc h2, ht, List.append_assoc]
          rw [List.take_left]
        · refine ⟨acc.length, ?_⟩
          rw [decode_stop f rest (s.take n) acc hc
              (by simp; omega),
            decode_stop f rest s acc hc (by omega)]
          simp
    · obtain ⟨k, hk⟩ := ih s n acc
      refine ⟨k, ?_⟩
      rw [decode_skip f rest (s.take n) acc (by simpa using hc),
        decode_skip f rest s acc (by simpa using hc), hk]

/-- C9: for every known packet name, decoding never fails on a short
bitstring: decoding any truncation `s.take n` stops early at the first
field that would read past the end and returns exactly the bindings
decoded so far — a prefix of the decoding of `s` — and decoding the empty
bitstring returns the empty mapping. -/
theorem c9_decode_truncation (name : Str) (defs : List PacketField)
    (hdef : PACKET_DEFS.lookup name = some defs) (s : List Char) (n : Nat) :
    (∃ k, decode_packet name (s.take n)
        = .fields ((decodeFields defs s []).take k)) ∧
      decode_packet name [] = .fields [] := by
  constructor
  · obtain ⟨k, hk⟩ := decode_take_aux defs s n []
    exact ⟨k, by simp [decode_packet, hdef, hk]⟩
  · have hmem : (name, defs) ∈ PACKET_DEFS := lookup_mem _ _ _ hdef
    have hall : ∀ p ∈ PACKET_DEFS, decodeFields p.2 [] [] = [] := by decide
    simp [decode_packet, hdef]
    exact hall _ hmem

/-- Witness for C9: `ETCS-5`, an arbitrary 12-character bitstring
truncated to 3 characters. -/
theorem c9_decode_truncation_witness :
    (∃ k, decode_packet "ETCS-5".toList ("000001010011".toList.take 3)
        = .fields ((decodeFields ((PACKET_DEFS.lookup "ETCS-5".toList).getD [])
            "000001010011".toList []).take k)) ∧
      decode_packet "ETCS-5".toList [] = .fields [] :=
  c9_decode_truncation "ETCS-5".toList _ (by decide) "000001010011".toList 3

theorem bin_to_int_foldl_shift (l : List Char) :
    ∀ (a : Nat),
      List.foldl (fun a c => 2 * a + (if c = '1' then 1 else 0)) a l
        = a * 2 ^ l.length + bin_to_int l := by
  induction l with
  | nil => intro a; simp [bin_to_int]
  | cons c t ih =>
    intro a
    show List.foldl _ (2 * a + _) t = _
    rw [ih]
    have hbt : bin_to_int (c :: t)
        = (if c = '1' then 1 else 0) * 2 ^ t.length + bin_to_int t := by
      show List.foldl _ (2 * 0 + _) t = _
      rw [ih]
      ring_nf
    rw [hbt, List.length_cons, pow_succ]
    ring

theorem bin_to_int_lt (l : List Char) : bin_to_int l < 2 ^ l.length := by
  induction l with
  | nil => simp [bin_to_int]
  | cons c t ih =>
    have h : bin_to_int (c :: t)
        = (if c = '1' then 1 else 0) * 2 ^ t.length + bin_to_int t := by
      show List.foldl _ (2 * 0 + _) t = _
      rw [bin_to_int_foldl_shift]
      ring_nf
    rw [h]
    simp only [List.length_cons, pow_succ]
    by_cases hc : c = '1' <;> simp [hc] <;> omega

/-- Every binding produced by the decoding loop comes from the initial
accumulator or from some schema field, with a value below `2 ^ len`. -/
theorem decode_mem_aux (fs : List PacketField) :
    ∀ (s : List Char) (acc : List (Str × Nat)) (p : Str × Nat),
      p ∈ decodeFields fs s acc →
      p ∈ acc ∨ ∃ f ∈ fs, f.name = p.1 ∧ p.2 < 2 ^ f.len := by
  induction fs with
  | nil =>
    intro s acc p hp
    exact Or.inl (by simpa [decodeFields] using hp)
  | cons f rest ih =>
    intro s acc p hp
    by_cases hc : condHolds acc f
    · by_cases hl : f.len ≤ s.length
      · rw [decode_go f rest s acc hc hl] at hp
        rcases ih _ _ _ hp with hin | ⟨g, hg, hgn, hgv⟩
        · rcases List.mem_append.mp hin with h | h
          · exact Or.inl h
          · have hp' : p = (f.name, bin_to_int (s.take f.len)) := by
              simpa using h
            right
            refine ⟨f, List.mem_cons_self _ _, ?_, ?_⟩
            · rw [hp']
            · rw [hp']
              have hlt := bin_to_int_lt (s.take f.len)
              have hlen : (s.take f.len).length = f.len := by
                rw [List.length_take]
                omega
              rw [hlen] at hlt
              exact hlt
        · exact Or.inr ⟨g, List.mem_cons_of_mem _ hg, hgn, hgv⟩
      · rw [decode_stop f rest s acc hc (by omega)] at hp
        exact Or.inl hp
    · rw [decode_skip f rest s acc (by simpa using hc)] at hp
      exact (ih s acc p hp).imp_right
        (fun ⟨g, hg, h1, h2⟩ => ⟨g, List.mem_cons_of_mem _ hg, h1, h2⟩)

/-- C10: on binary input strings, every value decoded for a field is
bounded by `2 ^ L` where `L` is the field's declared bit length (each
field is decoded from exactly `L` bits). -/
theorem c10_decode_bounds (name : Str) (defs : List PacketField)
    (hdef : PACKET_DEFS.lookup name = some defs) (s : List Char)
    (_hbin : ∀ c ∈ s, c = '0' ∨ c = '1') (fname : Str) (v : Nat)
    (hv : (decode_packet name s).find fname = some v) :
    ∃ f ∈ defs, f.name = fname ∧ v < 2 ^ f.len := by
  simp only [decode_packet, hdef, DecodeResult.find] at hv
  have hmem := lookup_mem _ _ _ hv
  rcases decode_mem_aux defs s [] _ hmem with hin | ⟨f, hf, hn, hval⟩
  · simp at hin
  · exact ⟨f, hf, hn, hval⟩

/-- Witness for C10: decoding `CTCS-5` from the 12-bit string
`000000101011` binds `Q_DIR` to `1 < 2 ^ 2`. -/
theorem c10_decode_bounds_witness :
    (PACKET_DEFS.lookup "CTCS-5".toList
        = some ((PACKET_DEFS.lookup "CTCS-5".toList).getD [])) ∧
    (∀ c ∈ "000000101011".toList, c = '0' ∨ c = '1') ∧
    (decode_packet "CTCS-5".toList "000000101011".toList).find "Q_DIR".toList
        = some 1 ∧
    (∃ f ∈ (PACKET_DEFS.lookup "CTCS-5".toList).getD [],
        f.name = "Q_DIR".toList ∧ 1 < 2 ^ f.len) :=
  ⟨by decide, by decide, by decide,
    c10_decode_bounds "CTCS-5".toList ((PACKET_DEFS.lookup "CTCS-5".toList).getD [])
      (by decide) "000000101011".toList (by decide) "Q_DIR".toList 1 (by decide)⟩

/-! ### C1: encode/decode round trip -/

theorem fieldVal_lt (V : List (Str × Nat)) (f : PacketField)
    (hfit : ∀ v, f.val = none → V.lookup f.name = some v → v < 2 ^ f.len)
    (hfix : ∀ v, f.val = some v → v < 2 ^ f.len) :
    fieldVal V f < 2 ^ f.len := by
  rcases hfv : f.val with _ | v
  · rcases hlv : V.lookup f.name with _ | v
    · simp only [fieldVal, hfv, hlv, Option.getD_none]
      positivity
    · have := hfit v hfv hlv
      simpa [fieldVal, hfv, hlv] using this
  · have := hfix v hfv
    simpa [fieldVal, hfv] using this

theorem condAgree_eq (V acc : List (Str × Nat)) (f : PacketField)
    (h : condAgree V acc f) : condHolds acc f = condHolds V f := by
  rcases hfc : f.cond with _ | c
  · simp [condHolds, hfc]
  · rcases c with ⟨F, k⟩ | _
    · simp only [condAgree, hfc] at h
      obtain ⟨h1, h2⟩ := h
      simp only [condHolds, hfc, evalCond]
      rw [h1]
      rcases hlv : V.lookup F with _ | w
      · have hk : k ≠ 0 := h2 hlv
        simp only [hlv, Option.getD_none]
        have h3 : ((some 0 : Option Nat) == some k) = false := by
          rw [beq_eq_false_iff_ne]
          intro hcontra
          exact hk (by injection hcontra with h'; exact h'.symm)
        have h4 : ((none : Option Nat) == some k) = false := rfl
        rw [h3, h4]
      · simp [hlv]
    · simp [condHolds, hfc, evalCond]

/-- Presence conditions are irrelevant for schemas whose fields carry no
condition (or only the constantly-false one). -/
theorem condsOK_plain (V : List (Str × Nat)) (fs : List PacketField)
    (h : ∀ f ∈ fs, f.cond = none ∨ f.cond = some .never) :
    ∀ acc, CondsOK V acc fs := by
  induction fs with
  | nil => intro acc; trivial
  | cons f rest ih =>
    intro acc
    refine ⟨?_, ?_⟩
    · rcases h f (List.mem_cons_self _ _) with hc | hc <;> simp [condAgree, hc]
    · exact ih (fun g hg => h g (List.mem_cons_of_mem _ hg)) _

/-- Core round-trip lemma: when decode-time conditions agree with
encode-time conditions all the way down the schema, decoding the encoding
recovers exactly the expected bindings. -/
theorem dec_enc (fs : List PacketField) (V : List (Str × Nat)) :
    ∀ acc : List (Str × Nat),
      (∀ f ∈ fs, 1 ≤ f.len) →
      (∀ f ∈ fs, ∀ v, f.val = none → V.lookup f.name = some v → v < 2 ^ f.len) →
      (∀ f ∈ fs, ∀ v, f.val = some v → v < 2 ^ f.len) →
      CondsOK V acc fs →
      decodeFields fs (encodeFields V fs) acc = acc ++ expected V fs := by
  induction fs with
  | nil =>
    intro acc _ _ _ _
    simp [decodeFields, encodeFields, expected]
  | cons f rest ih =>
    intro acc hlen hfit hfix hcond
    obtain ⟨hagree, hrest⟩ := hcond
    have hcc : condHolds acc f = condHolds V f := condAgree_eq V acc f hagree
    have hmem := List.mem_cons_self f rest
    by_cases hc : condHolds V f = true
    · have hval : fieldVal V f < 2 ^ f.len :=
        fieldVal_lt V f (fun v h1 h2 => hfit f hmem v h1 h2)
          (fun v h1 => hfix f hmem v h1)
      have henc : encodeFields V (f :: rest)
          = int_to_bin (fieldVal V f) f.len ++ encodeFields V rest := by
        simp [encodeFields, hc]
      rw [henc, decode_step f rest (fieldVal V f) _ acc (by rw [hcc]; exact hc)
          (hlen f hmem) hval]
      rw [ih _ (fun g hg => hlen g (List.mem_cons_of_mem _ hg))
          (fun g hg => hfit g (List.mem_cons_of_mem _ hg))
          (fun g hg => hfix g (List.mem_cons_of_mem _ hg))
          (by rwa [if_pos hc] at hrest)]
      have hexp : expected V (f :: rest)
          = (f.name, fieldVal V f) :: expected V rest := by
        simp [expected, hc]
      rw [hexp]
      simp
    · have hcf : condHolds V f = false := by
        simpa using hc
      have henc : encodeFields V (f :: rest) = encodeFields V rest := by
        simp [encodeFields, hcf]
      rw [henc, decode_skip f rest _ acc (by rw [hcc]; exact hcf)]
      rw [ih _ (fun g hg => hlen g (List.mem_cons_of_mem _ hg))
          (fun g hg => hfit g (List.mem_cons_of_mem _ hg))
          (fun g hg => hfix g (List.mem_cons_of_mem _ hg))
          (by rwa [if_neg (by simp [hcf]) ] at hrest)]
      have hexp : expected V (f :: rest) = expected V rest := by
        simp [expected, hcf]
      rw [hexp]

/-- Looking a present, unfixed field up in the expected bindings recovers
the caller's value (schema field names are distinct). -/
theorem expected_lookup (V : List (Str × Nat)) (fs : List PacketField)
    (f : PacketField) (hmem : f ∈ fs)
    (hnd : (fs.map PacketField.name).Nodup)
    (henc : condHolds V f = true) (hval : f.val = none)
    (v : Nat) (hv : V.lookup f.name = some v) :
    (expected V fs).lookup f.name = some v := by
  induction fs with
  | nil => cases hmem
  | cons g rest ih =>
    rcases List.mem_cons.mp hmem with rfl | hmem'
    · have hexp : expected V (f :: rest)
          = (f.name, fieldVal V f) :: expected V rest := by
        simp [expected, henc]
      rw [hexp]
      have hfv : fieldVal V f = v := by
        simp [fieldVal, hval, hv]
      simp [List.lookup, hfv]
    · have hne : (f.name == g.name) = false := by
        rw [List.map_cons, List.nodup_cons] at hnd
        have hin : f.name ∈ rest.map PacketField.name :=
          List.mem_map_of_mem _ hmem'
        rw [beq_eq_false_iff_ne]
        intro hcontra
        exact hnd.1 (hcontra ▸ hin)
      have hrest : (expected V rest).lookup f.name = some v := by
        apply ih hmem'
        rw [List.map_cons, List.nodup_cons] at hnd
        exact hnd.2
      rw [expected]
      by_cases hg : condHolds V g = true
      · simp only [hg, if_pos, List.singleton_append, List.lookup, hne]
        exact hrest
      · simp only [hg]
        simpa using hrest

theorem condsOK_etcs5 (V : List (Str × Nat)) : CondsOK V [] etcs5_def := by
  refine ⟨trivial, trivial, trivial, trivial, trivial, ⟨?_, ?_⟩, ?_⟩
  · simp [List.lookup, fieldVal]
  · intro _
    omega
  · exact condsOK_plain V _ (by decide) _

theorem condsOK_etcs41 (V : List (Str × Nat)) : CondsOK V [] etcs41_def := by
  refine ⟨trivial, trivial, trivial, trivial, trivial, ⟨?_, ?_⟩, ?_⟩
  · simp [List.lookup, fieldVal]
  · intro _
    omega
  · exact condsOK_plain V _ (by decide) _

theorem condsOK_etcs79 (V : List (Str × Nat)) : CondsOK V [] etcs79_def := by
  refine ⟨trivial, trivial, trivial, trivial, ⟨?_, ?_⟩, ?_⟩
  · simp [List.lookup, fieldVal]
  · intro _
    omega
  · exact condsOK_plain V _ (by decide) _

theorem condsOK_etcs68 (V : List (Str × Nat)) (w : Nat)
    (hQ : V.lookup "Q_TRACKINIT".toList = some w) : CondsOK V [] etcs68_def := by
  simp at hQ
  by_cases hw1 : w = 1
  · subst hw1
    simp [etcs68_def, CondsOK, condAgree, condHolds, evalCond, fieldVal, hQ,
      List.lookup]
  · by_cases hw0 : w = 0
    · subst hw0
      simp [etcs68_def, CondsOK, condAgree, condHolds, evalCond, fieldVal, hQ,
        List.lookup]
    · simp [etcs68_def, CondsOK, condAgree, condHolds, evalCond, fieldVal, hQ,
        List.lookup, hw1, hw0]

/-- C1: for every known packet type and every field-value mapping whose
values fit their declared bit widths, decoding the encoding reproduces
every supplied field that has no fixed value and whose presence condition
holds under the supplied mapping. -/
theorem c1_roundtrip (name : Str) (defs : List PacketField)
    (hdef : PACKET_DEFS.lookup name = some defs)
    (V : List (Str × Nat))
    (Hfit : ∀ g ∈ defs, ∀ u, V.lookup g.name = some u → u < 2 ^ g.len)
    (f : PacketField) (hmem : f ∈ defs) (hval : f.val = none)
    (hcond : condHolds V f = true) (v : Nat) (hv : V.lookup f.name = some v) :
    (decode_packet name (encode_packet name V)).find f.name = some v := by
  have hfacts : ∀ p ∈ PACKET_DEFS, (∀ g ∈ p.2, 1 ≤ g.len) ∧
      (∀ g ∈ p.2, ∀ u, g.val = some u → u < 2 ^ g.len) ∧
      (p.2.map PacketField.name).Nodup := by decide
  have hmemP : (name, defs) ∈ PACKET_DEFS := lookup_mem _ _ _ hdef
  obtain ⟨hlen, hfix, hnd⟩ := hfacts _ hmemP
  simp only [decode_packet, encode_packet, hdef, DecodeResult.find]
  have hfit' : ∀ g ∈ defs, ∀ u, g.val = none → V.lookup g.name = some u
      → u < 2 ^ g.len := fun g hg u _ h2 => Hfit g hg u h2
  have hdefs10 : defs = etcs5_def ∨ defs = ctcs1_def ∨ defs = etcs21_def ∨
      defs = etcs27_def ∨ defs = etcs41_def ∨ defs = ctcs2_def ∨
      defs = ctcs4_def ∨ defs = ctcs5_def ∨ defs = etcs68_def ∨
      defs = etcs79_def := by
    simp only [PACKET_DEFS, List.mem_cons, List.not_mem_nil, or_false,
      Prod.mk.injEq] at hmemP
    tauto
  have finish_clean : CondsOK V [] defs →
      (decodeFields defs (encodeFields V defs) []).lookup f.name = some v := by
    intro hOK
    rw [dec_enc defs V [] hlen hfit' hfix hOK]
    simp only [List.nil_append]
    exact expected_lookup V defs f hmem hnd hcond hval v hv
  rcases hdefs10 with rfl | rfl | rfl | rfl | rfl | rfl | rfl | rfl | rfl | rfl
  · exact finish_clean (condsOK_etcs5 V)
  · exact finish_clean (condsOK_plain V _ (by decide) _)
  · exact finish_clean (condsOK_plain V _ (by decide) _)
  · exact finish_clean (condsOK_plain V _ (by decide) _)
  · exact finish_clean (condsOK_etcs41 V)
  · exact finish_clean (condsOK_plain V _ (by decide) _)
  · exact finish_clean (condsOK_plain V _ (by decide) _)
  · exact finish_clean (condsOK_plain V _ (by decide) _)
  · -- ETCS-68: the only schema with `== 0` conditions, so the case where
    -- the controlling field is absent from V needs a direct computation.
    rcases hQ : V.lookup "Q_TRACKINIT".toList with _ | w
    · have hQn : List.lookup ['Q','_','T','R','A','C','K','I','N','I','T'] V
          = none := hQ
      have hbD : ((V.lookup "Q_DIR".toList).getD 0) < 2 ^ 2 := by
        rcases hd : V.lookup "Q_DIR".toList with _ | u
        · simp
        · simpa using Hfit ⟨"Q_DIR".toList, 2, none, none⟩ (by decide) u hd
      have hbS : ((V.lookup "Q_SCALE".toList).getD 0) < 2 ^ 2 := by
        rcases hd : V.lookup "Q_SCALE".toList with _ | u
        · simp
        · simpa using Hfit ⟨"Q_SCALE".toList, 2, none, none⟩ (by decide) u hd
      have henc : encodeFields V etcs68_def
          = int_to_bin ((68 : Nat) : Int) 8
            ++ (int_to_bin (((V.lookup "Q_DIR".toList).getD 0 : Nat) : Int) 2
            ++ (int_to_bin (((V.lookup "Q_SCALE".toList).getD 0 : Nat) : Int) 2
            ++ (int_to_bin ((0 : Nat) : Int) 1 ++ []))) := by
        simp [etcs68_def, encodeFields, condHolds, evalCond, fieldVal, hQn]
      rw [henc]
      simp only [etcs68_def]
      rw [decode_step ⟨"NID_PACKET".toList, 8, some 68, none⟩ _ 68 _ _
        rfl (by decide) (by decide)]
      rw [decode_step ⟨"Q_DIR".toList, 2, none, none⟩ _ _ _ _
        rfl (by decide) hbD]
      rw [decode_step ⟨"Q_SCALE".toList, 2, none, none⟩ _ _ _ _
        rfl (by decide) hbS]
      rw [decode_step ⟨"Q_TRACKINIT".toList, 1, none, none⟩ _ 0 _ _
        rfl (by decide) (by decide)]
      rw [decode_skip ⟨"D_TRACKINIT".toList, 15, none,
          some (.eqc "Q_TRACKINIT".toList 1)⟩ _ _ _
        (by simp [condHolds, evalCond, List.lookup])]
      rw [decode_stop ⟨"M_TRACKCOND".toList, 4, none,
          some (.eqc "Q_TRACKINIT".toList 0)⟩ _ _ _
        (by simp [condHolds, evalCond, List.lookup]) (by decide)]
      simp only [etcs68_def, List.mem_cons, List.not_mem_nil, or_false] at hmem
      rcases hmem with rfl | rfl | rfl | rfl | rfl | rfl | rfl | rfl | rfl
      · simp at hval
      · simp at hv
        simp [List.lookup, hv]
      · simp at hv
        simp [List.lookup, hv]
      · simp [hQn] at hv
      · simp [condHolds, evalCond, hQn] at hcond
      · simp [condHolds, evalCond, hQn] at hcond
      · simp [condHolds, evalCond, hQn] at hcond
      · simp [condHolds, evalCond, hQn] at hcond
      · simp [condHolds, evalCond, hQn] at hcond
    · exact finish_clean (condsOK_etcs68 V w hQ)
  · exact finish_clean (condsOK_etcs79 V)

/-- Witness for C1: `ETCS-5` with `Q_DIR = 1`, `Q_NEWCOUNTRY = 1`,
`NID_C = 515`; the conditional field `NID_C` survives the round trip. -/
theorem c1_roundtrip_witness :
    (∀ g ∈ (PACKET_DEFS.lookup "ETCS-5".toList).getD [], ∀ u,
        List.lookup g.name
            [("Q_DIR".toList, 1), ("Q_NEWCOUNTRY".toList, 1),
             ("NID_C".toList, 515)] = some u → u < 2 ^ g.len) ∧
    (decode_packet "ETCS-5".toList (encode_packet "ETCS-5".toList
        [("Q_DIR".toList, 1), ("Q_NEWCOUNTRY".toList, 1),
         ("NID_C".toList, 515)])).find "NID_C".toList = some 515 := by
  refine ⟨by decide, ?_⟩
  exact c1_roundtrip "ETCS-5".toList
    ((PACKET_DEFS.lookup "ETCS-5".toList).getD []) (by decide)
    [("Q_DIR".toList, 1), ("Q_NEWCOUNTRY".toList, 1), ("NID_C".toList, 515)]
    (by decide)
    ⟨"NID_C".toList, 10, none, some (.eqc "Q_NEWCOUNTRY".toList 1)⟩
    (by decide) (by decide) (by decide) 515 (by decide)

/-! ### Decimal digits and Python string helpers -/

theorem decDigitsAux_shift (fuel : Nat) : ∀ (n : Nat) (acc : Str),
    decDigitsAux fuel n acc = decDigitsAux fuel n [] ++ acc := by
  induction fuel with
  | zero => intro n acc; simp [decDigitsAux]
  | succ fuel ih =>
    intro n acc
    by_cases h : n = 0
    · simp [decDigitsAux, h]
    · simp only [decDigitsAux, if_neg h]
      rw [ih (n / 10) (decDigitChar (n % 10) :: acc),
        ih (n / 10) [decDigitChar (n % 10)]]
      simp

theorem decDigitsAux_fuel (n : Nat) : ∀ (f₁ f₂ : Nat) (acc : Str),
    n ≤ f₁ → n ≤ f₂ → decDigitsAux f₁ n acc = decDigitsAux f₂ n acc := by
  induction n using Nat.strong_induction_on with
  | _ n ih =>
    intro f₁ f₂ acc h₁ h₂
    by_cases h : n = 0
    · subst h
      cases f₁ <;> cases f₂ <;> simp [decDigitsAux]
    · obtain ⟨g₁, rfl⟩ : ∃ g, f₁ = g + 1 := ⟨f₁ - 1, by omega⟩
      obtain ⟨g₂, rfl⟩ : ∃ g, f₂ = g + 1 := ⟨f₂ - 1, by omega⟩
      simp only [decDigitsAux, if_neg h]
      exact ih (n / 10) (by omega) g₁ g₂ _ (by omega) (by omega)

theorem decDigits_rec (n : Nat) (h : 1 ≤ n) :
    decDigitsAux n n [] = decDigitsAux (n / 10) (n / 10) []
      ++ [decDigitChar (n % 10)] := by
  obtain ⟨m, rfl⟩ : ∃ m, n = m + 1 := ⟨n - 1, by omega⟩
  show decDigitsAux (m + 1) (m + 1) [] = _
  simp only [decDigitsAux, if_neg (by omega : ¬ m + 1 = 0)]
  rw [decDigitsAux_shift]
  congr 1
  exact decDigitsAux_fuel _ _ _ [] (by omega) (by omega)

theorem decDigitChar_isDigit (d : Nat) : (decDigitChar d).isDigit = true := by
  unfold decDigitChar
  split_ifs <;> decide

theorem decDigitChar_not_space (d : Nat) : pyIsSpace (decDigitChar d) = false := by
  unfold decDigitChar
  split_ifs <;> decide

theorem decDigitChar_val (d : Nat) (h : d < 10) :
    (decDigitChar d).toNat - '0'.toNat = d := by
  interval_cases d <;> decide

theorem natOfDigits_snoc (l : Str) (c : Char) :
    natOfDigits (l ++ [c]) = 10 * natOfDigits l + (c.toNat - '0'.toNat) := by
  simp [natOfDigits, List.foldl_append]

theorem mem_pyStrNat_digit (n : Nat) (c : Char) (h : c ∈ pyStrNat n) :
    c.isDigit = true := by
  unfold pyStrNat at h
  by_cases h0 : n = 0
  · simp [h0] at h
    subst h
    decide
  · rw [if_neg h0] at h
    clear h0
    induction n using Nat.strong_induction_on with
    | _ n ih =>
      by_cases h0 : n = 0
      · subst h0
        simp [decDigitsAux] at h
      · rw [decDigits_rec n (by omega)] at h
        rcases List.mem_append.mp h with h' | h'
        · exact ih (n / 10) (by omega) h'
        · rw [List.mem_singleton] at h'
          subst h'
          exact decDigitChar_isDigit _
    
theorem pyStrNat_ne_nil (n : Nat) : pyStrNat n ≠ [] := by
  unfold pyStrNat
  by_cases h0 : n = 0
  · simp [h0]
  · rw [if_neg h0, decDigits_rec n (by omega)]
    simp

theorem natOfDigits_pyStrNat (n : Nat) : natOfDigits (pyStrNat n) = n := by
  unfold pyStrNat
  by_cases h0 : n = 0
  · simp [h0]
    decide
  · rw [if_neg h0]
    clear h0
    induction n using Nat.strong_induction_on with
    | _ n ih =>
      by_cases h0 : n = 0
      · subst h0
        simp [decDigitsAux, natOfDigits]
      · rw [decDigits_rec n (by omega), natOfDigits_snoc,
          decDigitChar_val _ (by omega)]
        by_cases h10 : n / 10 = 0
        · rw [h10]
          simp [decDigitsAux, natOfDigits]
          omega
        · rw [ih (n / 10) (by omega)]
          omega

theorem dropWhile_no_space (l : Str) (h : ∀ c ∈ l, pyIsSpace c = false) :
    List.dropWhile pyIsSpace l = l := by
  induction l with
  | nil => simp
  | cons c rest _ =>
    rw [List.dropWhile_cons_of_neg]
    simp [h c (List.mem_cons_self _ _)]

theorem pyStrip_no_space (l : Str) (h : ∀ c ∈ l, pyIsSpace c = false) :
    pyStrip l = l := by
  unfold pyStrip
  rw [dropWhile_no_space l h, dropWhile_no_space _ (by
    intro c hc
    exact h c (List.mem_reverse.mp hc)), List.reverse_reverse]

theorem isDigit_not_space (c : Char) (h : c.isDigit = true) :
    pyIsSpace c = false := by
  unfold pyIsSpace
  simp only [decide_eq_false_iff_not]
  rintro (rfl | rfl | rfl | rfl | rfl | rfl) <;> exact absurd h (by decide)

theorem pyStrip_pyStrNat (n : Nat) : pyStrip (pyStrNat n) = pyStrNat n := by
  apply pyStrip_no_space
  intro c hc
  exact isDigit_not_space c (mem_pyStrNat_digit n c hc)

theorem pyIsDigit_pyStrNat (n : Nat) : pyIsDigit (pyStrNat n) = true := by
  unfold pyIsDigit
  rw [Bool.and_eq_true]
  constructor
  · simp [List.isEmpty_iff, pyStrNat_ne_nil n]
  · rw [List.all_eq_true]
    intro c hc
    exact mem_pyStrNat_digit n c hc

theorem inSid_pyStrNat (b : Balise) (n : Nat) :
    inSid { b with sub_id := pyStrNat n } = some n := by
  unfold inSid
  simp only [pyStrip_pyStrNat, pyIsDigit_pyStrNat, if_true]
  rw [natOfDigits_pyStrNat]

theorem pyIntOpt_digits (s : Str) (h : pyIsDigit (pyStrip s) = true) :
    pyIntOpt s = some ((natOfDigits (pyStrip s) : Int)) := by
  unfold pyIntOpt
  rcases ht : pyStrip s with _ | ⟨c, ts⟩
  · rw [ht] at h
    simp [pyIsDigit] at h
  · rw [ht] at h
    have hcd : c.isDigit = true := by
      unfold pyIsDigit at h
      rw [Bool.and_eq_true, List.all_eq_true] at h
      exact h.2 c (List.mem_cons_self _ _)
    have hc1 : ¬ (c = '-') := by
      intro hc
      rw [hc] at hcd
      exact absurd hcd (by decide)
    have hc2 : ¬ (c = '+') := by
      intro hc
      rw [hc] at hcd
      exact absurd hcd (by decide)
    simp [hc1, hc2, h]

/-! ### Group-processing structure lemmas -/

theorem filter_length_mono (p q : Nat → Bool) (l : List Nat)
    (h : ∀ m, p m = true → q m = true) :
    (l.filter p).length ≤ (l.filter q).length := by
  induction l with
  | nil => simp
  | cons a rest ih =>
    by_cases hp : p a = true
    · rw [List.filter_cons_of_pos hp, List.filter_cons_of_pos (h a hp)]
      simpa using ih
    · rw [List.filter_cons_of_neg (by simpa using hp)]
      by_cases hq : q a = true
      · rw [List.filter_cons_of_pos hq]
        simp
        omega
      · rw [List.filter_cons_of_neg (by simpa using hq)]
        exact ih

theorem filter_succ_lt (used : List Nat) (next : Nat) (h : next ∈ used) :
    (used.filter (fun m => next + 1 ≤ m)).length
      < (used.filter (fun m => next ≤ m)).length := by
  induction used with
  | nil => cases h
  | cons a rest ih =>
    rcases List.mem_cons.mp h with rfl | h'
    · rw [List.filter_cons_of_neg (by simp),
        List.filter_cons_of_pos (by simp)]
      have := filter_length_mono (fun m => next + 1 ≤ m) (fun m => next ≤ m)
        rest (by intro m hm; simp at hm ⊢; omega)
      simp
      omega
    · by_cases ha : next + 1 ≤ a
      · rw [List.filter_cons_of_pos (by simpa using ha),
          List.filter_cons_of_pos (by simp; omega)]
        simpa using ih h'
      · rw [List.filter_cons_of_neg (by simpa using ha)]
        by_cases hb : next ≤ a
        · rw [List.filter_cons_of_pos (by simpa using hb)]
          have := ih h'
          simp
          omega
        · rw [List.filter_cons_of_neg (by simpa using hb)]
          exact ih h'

theorem findFree_not_mem : ∀ (fuel next : Nat) (used : List Nat),
    (used.filter (fun m => next ≤ m)).length < fuel →
    findFree fuel next used ∉ used := by
  intro fuel
  induction fuel with
  | zero => intro next used h; omega
  | succ fuel ih =>
    intro next used h
    by_cases hmem : next ∈ used
    · rw [show findFree (fuel + 1) next used = findFree fuel (next + 1) used
        from by simp [findFree, hmem]]
      apply ih
      have := filter_succ_lt used next hmem
      omega
    · rw [show findFree (fuel + 1) next used = next
        from by simp [findFree, hmem]]
      exact hmem

theorem findFree_spec (next : Nat) (used : List Nat) :
    findFree (used.length + 1) next used ∉ used := by
  apply findFree_not_mem
  have := List.length_filter_le (fun m => next ≤ m) used
  omega

theorem singleOr_father (b : Balise) :
    (if pyStrip b.father_balise = [] then singleUpdate b else b).father_balise
      = b.father_balise := by
  split_ifs <;> rfl

theorem filter_singles (bs : List Balise) (f : Str) (hf : f ≠ []) :
    (bs.map (fun b =>
        if pyStrip b.father_balise = [] then singleUpdate b else b)).filter
        (fatherEq f)
      = bs.filter (fatherEq f) := by
  induction bs with
  | nil => simp
  | cons b rest ih =>
    rw [List.map_cons]
    by_cases hb : fatherEq f b = true
    · have hemp : ¬ (pyStrip b.father_balise = []) := by
        unfold fatherEq at hb
        simp at hb
        rw [hb]
        exact hf
      rw [if_neg hemp, List.filter_cons_of_pos hb,
        List.filter_cons_of_pos hb, ih]
    · have hb2 : fatherEq f (if pyStrip b.father_balise = []
          then singleUpdate b else b) = false := by
        unfold fatherEq at hb ⊢
        rw [singleOr_father]
        simpa using hb
      rw [List.filter_cons_of_neg (by simpa using hb2),
        List.filter_cons_of_neg (by simpa using hb), ih]

theorem assignPass_fathers : ∀ (g : List Balise) (used : List Nat) (next : Nat),
    ((assignPass g used next).1).map Balise.father_balise
      = g.map Balise.father_balise := by
  intro g
  induction g with
  | nil => intro used next; simp [assignPass]
  | cons b rest ih =>
    intro used next
    by_cases hd : pyIsDigit (pyStrip b.sub_id) = true
    · rw [show assignPass (b :: rest) used next
          = (b :: (assignPass rest used next).1, (assignPass rest used next).2)
        from by simp [assignPass, hd]]
      simp [ih]
    · rw [show assignPass (b :: rest) used next
          = ({ b with sub_id := pyStrNat (findFree (used.length + 1) next used) }
              :: (assignPass rest
                (findFree (used.length + 1) next used :: used)
                (findFree (used.length + 1) next used)).1,
             (assignPass rest
                (findFree (used.length + 1) next used :: used)
                (findFree (used.length + 1) next used)).2)
        from by simp [assignPass, hd]]
      simp [ih]

theorem finalize_father (c : Nat) (b : Balise) :
    (finalize c b).father_balise = b.father_balise := rfl

theorem processGroup_fathers (g : List Balise) :
    (processGroup g).map Balise.father_balise = g.map Balise.father_balise := by
  unfold processGroup
  rw [List.map_map]
  have : Balise.father_balise ∘ finalize g.length = Balise.father_balise := by
    funext b
    exact finalize_father _ _
  rw [this, assignPass_fathers]

theorem processGroup_length (g : List Balise) :
    (processGroup g).length = g.length := by
  have h := congrArg List.length (processGroup_fathers g)
  simpa using h

theorem processGroup_members_father (rs : List Balise) (f : Str) :
    ∀ u ∈ processGroup (rs.filter (fatherEq f)), fatherEq f u = true := by
  intro u hu
  have h1 : u.father_balise
      ∈ (processGroup (rs.filter (fatherEq f))).map Balise.father_balise :=
    List.mem_map_of_mem _ hu
  rw [processGroup_fathers] at h1
  obtain ⟨x, hx, hxf⟩ := List.mem_map.mp h1
  have hxe : fatherEq f x = true := List.of_mem_filter hx
  unfold fatherEq at hxe ⊢
  rw [← hxf]
  exact hxe

theorem writeBack_filter_self (f : Str) : ∀ (rs upd : List Balise),
    (∀ u ∈ upd, fatherEq f u = true) →
    upd.length = (rs.filter (fatherEq f)).length →
    (writeBack f upd rs).filter (fatherEq f) = upd := by
  intro rs
  induction rs with
  | nil =>
    intro upd _ hlen
    simp at hlen
    simp [writeBack, hlen]
  | cons b rest ih =>
    intro upd hupd hlen
    by_cases hb : fatherEq f b = true
    · rw [List.filter_cons_of_pos hb] at hlen
      rcases upd with _ | ⟨u, us⟩
      · simp at hlen
      · rw [show writeBack f (u :: us) (b :: rest)
            = u :: writeBack f us rest from by simp [writeBack, hb]]
        rw [List.filter_cons_of_pos (hupd u (List.mem_cons_self _ _))]
        rw [ih us (fun x hx => hupd x (List.mem_cons_of_mem _ hx))
          (by simpa using hlen)]
    · rw [List.filter_cons_of_neg (by simpa using hb)] at hlen
      rw [show writeBack f upd (b :: rest) = b :: writeBack f upd rest
        from by simp [writeBack, hb]]
      rw [List.filter_cons_of_neg (by simpa using hb)]
      exact ih upd hupd hlen

theorem writeBack_filter_other (f f' : Str) (hne : f' ≠ f) :
    ∀ (rs upd : List Balise), (∀ u ∈ upd, fatherEq f u = true) →
    (writeBack f upd rs).filter (fatherEq f') = rs.filter (fatherEq f') := by
  intro rs
  induction rs with
  | nil => intro upd _; simp [writeBack]
  | cons b rest ih =>
    intro upd hupd
    by_cases hb : fatherEq f b = true
    · have hb' : fatherEq f' b = false := by
        unfold fatherEq at hb ⊢
        simp at hb ⊢
        rw [hb]
        exact fun hc => hne hc.symm
      rcases upd with _ | ⟨u, us⟩
      · rw [show writeBack f [] (b :: rest) = b :: writeBack f [] rest
          from by simp [writeBack, hb]]
        rw [List.filter_cons_of_neg (by simpa using hb'),
          List.filter_cons_of_neg (by simpa using hb')]
        exact ih [] (by simp)
      · have hu' : fatherEq f' u = false := by
          have := hupd u (List.mem_cons_self _ _)
          unfold fatherEq at this ⊢
          simp at this ⊢
          rw [this]
          exact fun hc => hne hc.symm
        rw [show writeBack f (u :: us) (b :: rest)
            = u :: writeBack f us rest from by simp [writeBack, hb]]
        rw [List.filter_cons_of_neg (by simpa using hu'),
          List.filter_cons_of_neg (by simpa using hb')]
        exact ih us (fun x hx => hupd x (List.mem_cons_of_mem _ hx))
    · rw [show writeBack f upd (b :: rest) = b :: writeBack f upd rest
        from by simp [writeBack, hb]]
      by_cases hb' : fatherEq f' b = true
      · rw [List.filter_cons_of_pos hb', List.filter_cons_of_pos hb',
          ih upd hupd]
      · rw [List.filter_cons_of_neg (by simpa using hb'),
          List.filter_cons_of_neg (by simpa using hb'),
          ih upd hupd]

theorem applyGroup_filter_self (rs : List Balise) (f : Str) :
    (applyGroup rs f).filter (fatherEq f)
      = processGroup (rs.filter (fatherEq f)) := by
  unfold applyGroup
  exact writeBack_filter_self f rs _ (processGroup_members_father rs f)
    (processGroup_length _)

theorem applyGroup_filter_other (rs : List Balise) (f f' : Str) (hne : f' ≠ f) :
    (applyGroup rs f).filter (fatherEq f') = rs.filter (fatherEq f') := by
  unfold applyGroup
  exact writeBack_filter_other f f' hne rs _ (processGroup_members_father rs f)

theorem foldl_applyGroup_not_mem (fs : List Str) (f : Str) :
    ∀ rs, f ∉ fs →
    (fs.foldl applyGroup rs).filter (fatherEq f) = rs.filter (fatherEq f) := by
  induction fs with
  | nil => intro rs _; simp
  | cons f' rest ih =>
    intro rs hf
    rw [List.foldl_cons]
    have hne : f ≠ f' := fun h => hf (h ▸ List.mem_cons_self _ _)
    rw [ih _ (fun h => hf (List.mem_cons_of_mem _ h))]
    exact applyGroup_filter_other rs f' f hne

theorem foldl_applyGroup_mem (fs : List Str) (f : Str) :
    ∀ rs, f ∈ fs → fs.Nodup →
    (fs.foldl applyGroup rs).filter (fatherEq f)
      = processGroup (rs.filter (fatherEq f)) := by
  induction fs with
  | nil => intro rs h _; cases h
  | cons f' rest ih =>
    intro rs hmem hnd
    rw [List.foldl_cons]
    rcases List.mem_cons.mp hmem with rfl | hmem'
    · have hf_not : f ∉ rest := (List.nodup_cons.mp hnd).1
      rw [foldl_applyGroup_not_mem rest f _ hf_not, applyGroup_filter_self]
    · have hne : f ≠ f' := by
        rintro rfl
        exact (List.nodup_cons.mp hnd).1 hmem'
      rw [ih _ hmem' (List.nodup_cons.mp hnd).2,
        applyGroup_filter_other rs f' f hne]

theorem fatherStep_mono (f : Str) (acc : List Str) (b : Balise) (h : f ∈ acc) :
    f ∈ fatherStep acc b := by
  unfold fatherStep
  split_ifs
  · exact h
  · exact List.mem_append_left _ h

theorem foldl_fatherStep_mono (f : Str) : ∀ (bs : List Balise) (acc : List Str),
    f ∈ acc → f ∈ bs.foldl fatherStep acc := by
  intro bs
  induction bs with
  | nil => intro acc h; simpa using h
  | cons b rest ih => intro acc h; exact ih _ (fatherStep_mono f acc b h)

theorem mem_fathersOf (bs : List Balise) (f : Str) (hf : f ≠ [])
    (hex : ∃ b ∈ bs, pyStrip b.father_balise = f) : f ∈ fathersOf bs := by
  unfold fathersOf
  have aux : ∀ (l : List Balise) (acc : List Str),
      (∃ b ∈ l, pyStrip b.father_balise = f) → f ∈ l.foldl fatherStep acc := by
    intro l
    induction l with
    | nil => intro acc h; simp at h
    | cons b rest ih =>
      intro acc h
      rcases h with ⟨x, hx, hxf⟩
      rcases List.mem_cons.mp hx with rfl | hx'
      · rw [List.foldl_cons]
        apply foldl_fatherStep_mono
        unfold fatherStep
        rw [hxf]
        split_ifs with hs
        · rcases hs with hs | hs
          · exact absurd hs hf
          · exact hs
        · exact List.mem_append_right _ (List.mem_singleton_self _)
      · exact ih _ ⟨x, hx', hxf⟩
  exact aux bs [] hex

theorem fathersOf_nodup (bs : List Balise) : (fathersOf bs).Nodup := by
  unfold fathersOf
  have aux : ∀ (l : List Balise) (acc : List Str),
      acc.Nodup → (l.foldl fatherStep acc).Nodup := by
    intro l
    induction l with
    | nil => intro acc h; simpa using h
    | cons b rest ih =>
      intro acc h
      apply ih
      unfold fatherStep
      split_ifs with hs
      · exact h
      · rw [List.nodup_append]
        refine ⟨h, List.nodup_singleton _, ?_⟩
        intro a ha hamem
        rw [List.mem_singleton] at hamem
        subst hamem
        exact hs (Or.inr ha)
  exact aux bs [] List.nodup_nil

/-- The key structural fact: the processed roster's group keyed by any
non-empty father value `f` is exactly `processGroup` of the input
members of that group, in order. -/
theorem process_filter_eq (bs : List Balise) (f : Str) (hf : f ≠ []) :
    (process_balise_groups bs).filter (fatherEq f)
      = processGroup (bs.filter (fatherEq f)) := by
  unfold process_balise_groups
  by_cases hmem : f ∈ fathersOf bs
  · rw [foldl_applyGroup_mem _ f _ hmem (fathersOf_nodup bs),
      filter_singles bs f hf]
  · rw [foldl_applyGroup_not_mem _ f _ hmem, filter_singles bs f hf]
    have hempty : bs.filter (fatherEq f) = [] := by
      rcases hne : bs.filter (fatherEq f) with _ | ⟨x, xs⟩
      · rfl
      · exfalso
        have hx : x ∈ bs.filter (fatherEq f) := by
          rw [hne]
          exact List.mem_cons_self _ _
        have hxbs := List.mem_of_mem_filter hx
        have hxf : fatherEq f x = true := List.of_mem_filter hx
        exact hmem (mem_fathersOf bs f hf
          ⟨x, hxbs, by simpa [fatherEq] using hxf⟩)
    rw [hempty]
    simp [processGroup, assignPass]

/-! ### Sub-id assignment: uniqueness and shape -/

theorem mem_collectUsed (g : List Balise) (b : Balise) (hb : b ∈ g) (n : Nat)
    (hn : inSid b = some n) : n ∈ collectUsed g := by
  unfold collectUsed
  have hmono : ∀ (l : List Balise) (acc : List Nat), n ∈ acc →
      n ∈ l.foldl (fun acc b =>
        if pyIsDigit (pyStrip b.sub_id) then natOfDigits (pyStrip b.sub_id) :: acc
        else acc) acc := by
    intro l
    induction l with
    | nil => intro acc h; simpa using h
    | cons x rest ih =>
      intro acc h
      rw [List.foldl_cons]
      apply ih
      split_ifs
      · exact List.mem_cons_of_mem _ h
      · exact h
  have haux : ∀ (l : List Balise) (acc : List Nat),
      (∃ x ∈ l, inSid x = some n) →
      n ∈ l.foldl (fun acc b =>
        if pyIsDigit (pyStrip b.sub_id) then natOfDigits (pyStrip b.sub_id) :: acc
        else acc) acc := by
    intro l
    induction l with
    | nil => intro acc h; simp at h
    | cons x rest ih =>
      intro acc h
      rcases h with ⟨y, hy, hyn⟩
      rcases List.mem_cons.mp hy with rfl | hy'
      · rw [List.foldl_cons]
        unfold inSid at hyn
        by_cases hd : pyIsDigit (pyStrip y.sub_id) = true
        · rw [if_pos hd] at hyn
          obtain rfl : natOfDigits (pyStrip y.sub_id) = n := by
            injection hyn
          apply hmono
          rw [if_pos hd]
          exact List.mem_cons_self _ _
        · rw [if_neg hd] at hyn
          cases hyn
      · rw [List.foldl_cons]
        exact ih _ ⟨y, hy', hyn⟩
  exact haux g [] ⟨b, hb, hn⟩

theorem assign_numeric : ∀ (g : List Balise) (used : List Nat) (next : Nat),
    ∀ b ∈ (assignPass g used next).1, (inSid b).isSome = true := by
  intro g
  induction g with
  | nil => intro used next b hb; simp [assignPass] at hb
  | cons x rest ih =>
    intro used next b hb
    by_cases hd : pyIsDigit (pyStrip x.sub_id) = true
    · rw [show assignPass (x :: rest) used next
          = (x :: (assignPass rest used next).1,
             (assignPass rest used next).2) from by simp [assignPass, hd]] at hb
      rcases List.mem_cons.mp hb with rfl | hb'
      · rw [show inSid b = some (natOfDigits (pyStrip b.sub_id))
          from by simp [inSid, hd]]
        rfl
      · exact ih used next b hb'
    · rw [show assignPass (x :: rest) used next
          = ({ x with sub_id := pyStrNat (findFree (used.length + 1) next used) }
              :: (assignPass rest
                (findFree (used.length + 1) next used :: used)
                (findFree (used.length + 1) next used)).1,
             (assignPass rest
                (findFree (used.length + 1) next used :: used)
                (findFree (used.length + 1) next used)).2)
        from by simp [assignPass, hd]] at hb
      rcases List.mem_cons.mp hb with rfl | hb'
      · rw [inSid_pyStrNat]
        rfl
      · exact ih _ _ b hb'

theorem assign_core : ∀ (g : List Balise) (used : List Nat) (next : Nat),
    (∀ b ∈ g, ∀ n, inSid b = some n → n ∈ used) →
    (g.filterMap inSid).Nodup →
    ((assignPass g used next).1.filterMap inSid).Nodup ∧
    (∀ n ∈ (assignPass g used next).1.filterMap inSid,
        n ∈ g.filterMap inSid ∨ n ∉ used) := by
  intro g
  induction g with
  | nil =>
    intro used next _ _
    constructor <;> simp [assignPass]
  | cons b rest ih =>
    intro used next h1 h2
    by_cases hd : pyIsDigit (pyStrip b.sub_id) = true
    · have hins : inSid b = some (natOfDigits (pyStrip b.sub_id)) := by
        simp [inSid, hd]
      have hvused : natOfDigits (pyStrip b.sub_id) ∈ used :=
        h1 b (List.mem_cons_self _ _) _ hins
      have hfm : (b :: rest).filterMap inSid
          = natOfDigits (pyStrip b.sub_id) :: rest.filterMap inSid := by
        simp [List.filterMap_cons, hins]
      rw [hfm] at h2
      obtain ⟨hvnot, h2tail⟩ := List.nodup_cons.mp h2
      obtain ⟨hb2, hc⟩ := ih used next
        (fun x hx n hn => h1 x (List.mem_cons_of_mem _ hx) n hn) h2tail
      rw [show assignPass (b :: rest) used next
          = (b :: (assignPass rest used next).1,
             (assignPass rest used next).2) from by simp [assignPass, hd]]
      constructor
      · rw [show (b :: (assignPass rest used next).1).filterMap inSid
            = natOfDigits (pyStrip b.sub_id)
              :: (assignPass rest used next).1.filterMap inSid
          from by simp [List.filterMap_cons, hins]]
        refine List.nodup_cons.mpr ⟨?_, hb2⟩
        intro hvin
        rcases hc _ hvin with hin | hnot
        · exact hvnot hin
        · exact hnot hvused
      · intro n hn
        rw [show (b :: (assignPass rest used next).1).filterMap inSid
            = natOfDigits (pyStrip b.sub_id)
              :: (assignPass rest used next).1.filterMap inSid
          from by simp [List.filterMap_cons, hins]] at hn
        rcases List.mem_cons.mp hn with rfl | hn'
        · left
          rw [hfm]
          exact List.mem_cons_self _ _
        · rcases hc n hn' with hin | hnot
          · left
            rw [hfm]
            exact List.mem_cons_of_mem _ hin
          · right
            exact hnot
    · have hins : inSid b = none := by simp [inSid, hd]
      obtain ⟨n0, hn0def⟩ : ∃ n0, findFree (used.length + 1) next used = n0 :=
        ⟨_, rfl⟩
      have hn0mem : n0 ∉ used := hn0def ▸ findFree_spec next used
      have hinsb : inSid { b with sub_id := pyStrNat n0 } = some n0 :=
        inSid_pyStrNat b n0
      have hfm : (b :: rest).filterMap inSid = rest.filterMap inSid := by
        simp [List.filterMap_cons, hins]
      rw [hfm] at h2
      obtain ⟨hb2, hc⟩ := ih (n0 :: used) n0
        (fun x hx n hn =>
          List.mem_cons_of_mem _ (h1 x (List.mem_cons_of_mem _ hx) n hn)) h2
      rw [show assignPass (b :: rest) used next
          = ({ b with sub_id := pyStrNat n0 }
              :: (assignPass rest (n0 :: used) n0).1,
             (assignPass rest (n0 :: used) n0).2)
        from by simp [assignPass, hd, hn0def]]
      constructor
      · rw [show ({ b with sub_id := pyStrNat n0 }
              :: (assignPass rest (n0 :: used) n0).1).filterMap inSid
            = n0 :: (assignPass rest (n0 :: used) n0).1.filterMap inSid
          from by simp [List.filterMap_cons, hinsb]]
        refine List.nodup_cons.mpr ⟨?_, hb2⟩
        intro hvin
        rcases hc _ hvin with hin | hnot
        · obtain ⟨x, hx, hxn⟩ := List.mem_filterMap.mp hin
          exact hn0mem (h1 x (List.mem_cons_of_mem _ hx) n0 hxn)
        · exact hnot (List.mem_cons_self _ _)
      · intro n hn
        rw [show ({ b with sub_id := pyStrNat n0 }
              :: (assignPass rest (n0 :: used) n0).1).filterMap inSid
            = n0 :: (assignPass rest (n0 :: used) n0).1.filterMap inSid
          from by simp [List.filterMap_cons, hinsb]] at hn
        rcases List.mem_cons.mp hn with rfl | hn'
        · right
          exact hn0mem
        · rcases hc n hn' with hin | hnot
          · left
            rw [hfm]
            exact hin
          · right
            exact fun hcon => hnot (List.mem_cons_of_mem _ hcon)

theorem inSid_finalize (c : Nat) (x : Balise) :
    inSid (finalize c x) = inSid x := rfl

/-- C3 (counterexample): with caller-supplied duplicate sub_ids in one
group, the code keeps both duplicates: two balises with father `F` and
sub_id `1` both retain sub_id `1`, so the group's sub_ids are not
pairwise distinct. -/
theorem c3_counterexample :
    ¬ ((((process_balise_groups
        [{ father_balise := "F".toList, sub_id := "1".toList },
         { father_balise := "F".toList, sub_id := "1".toList }]).filter
        (fatherEq "F".toList)).filterMap inSid).Nodup) := by
  decide

/-- C3 (amended: caller-supplied numeric sub_ids within the group must be
pairwise distinct): then, after group assignment runs, every member of
the group has a numeric sub_id and the group's sub_id values are pairwise
distinct naturals. -/
theorem c3_group_sub_ids_unique (bs : List Balise) (f : Str) (hf : f ≠ [])
    (hdist : ((bs.filter (fatherEq f)).filterMap inSid).Nodup) :
    (∀ b ∈ (process_balise_groups bs).filter (fatherEq f),
        (inSid b).isSome = true) ∧
    (((process_balise_groups bs).filter (fatherEq f)).filterMap inSid).Nodup := by
  rw [process_filter_eq bs f hf]
  obtain ⟨hb2, _⟩ := assign_core (bs.filter (fatherEq f))
    (collectUsed (bs.filter (fatherEq f))) 0
    (fun b hb n hn => mem_collectUsed _ b hb n hn) hdist
  constructor
  · intro b hbmem
    unfold processGroup at hbmem
    obtain ⟨x, hx, rfl⟩ := List.mem_map.mp hbmem
    rw [inSid_finalize]
    exact assign_numeric _ _ _ x hx
  · unfold processGroup
    rw [List.filterMap_map]
    rw [show inSid ∘ finalize (bs.filter (fatherEq f)).length = inSid
      from funext (inSid_finalize _)]
    exact hb2

/-- Witness for C3: father `F`, one member with sub_id `0` and one
without; the assigned ids are `0` and `1`, pairwise distinct. -/
theorem c3_group_sub_ids_unique_witness :
    ("F".toList ≠ ([] : Str)) ∧
    ((([{ father_balise := "F".toList, sub_id := "0".toList },
        { father_balise := "F".toList }] : List Balise).filter
        (fatherEq "F".toList)).filterMap inSid).Nodup ∧
    ((∀ b ∈ (process_balise_groups
        [{ father_balise := "F".toList, sub_id := "0".toList },
         { father_balise := "F".toList }]).filter (fatherEq "F".toList),
        (inSid b).isSome = true) ∧
     (((process_balise_groups
        [{ father_balise := "F".toList, sub_id := "0".toList },
         { father_balise := "F".toList }]).filter
        (fatherEq "F".toList)).filterMap inSid).Nodup) :=
  ⟨by decide, by decide,
    c3_group_sub_ids_unique
      [{ father_balise := "F".toList, sub_id := "0".toList },
       { father_balise := "F".toList }] "F".toList (by decide) (by decide)⟩

theorem pyFormat3_eq (n : Nat) (h : n < 8) :
    pyFormatB ((n : Nat) : Int) 3 = natToBin n 3 := by
  unfold pyFormatB
  rw [if_neg (by simp : ¬ ((n : Int) < 0))]
  rw [show ((n : Int)).toNat = n by simp]
  exact (natToBin_pad 3 n (by omega) (by omega)).symm

/-- C7 (counterexample): a caller-supplied sub_id of `9` survives
assignment, and `f"{9:03b}"` pads to a minimum of three characters but
never truncates, so n_pig becomes the four-character string `1001` — not
a 3-character encoding of `9 mod 8`. -/
theorem c7_counterexample :
    ((process_balise_groups
        [{ father_balise := "F".toList, sub_id := "9".toList }]).filter
        (fatherEq "F".toList)).map Balise.n_pig = [['1', '0', '0', '1']] ∧
    (['1', '0', '0', '1'] : Str).length ≠ 3 := by
  decide

/-- C7 (amended): after group assignment every member of a non-empty
father group has a numeric sub_id value `n` and `n_pig = f"{n:03b}"` —
zero-padded to at least three characters but not truncated; this is the
claimed three-character representation exactly when `n < 8` (the `"000"`
fallback for non-numeric sub_ids is unreachable after assignment). -/
theorem c7_n_pig (bs : List Balise) (f : Str) (hf : f ≠ []) :
    ∀ b ∈ (process_balise_groups bs).filter (fatherEq f),
      ∃ n : Nat, pyIntOpt b.sub_id = some ((n : Int)) ∧
        b.n_pig = pyFormatB ((n : Int)) 3 ∧
        (n < 8 → b.n_pig = natToBin n 3) := by
  intro b hb
  rw [process_filter_eq bs f hf] at hb
  unfold processGroup at hb
  obtain ⟨x, hx, rfl⟩ := List.mem_map.mp hb
  have hnum : (inSid x).isSome = true := assign_numeric _ _ _ x hx
  obtain ⟨n, hn⟩ := Option.isSome_iff_exists.mp hnum
  have hdig : pyIsDigit (pyStrip x.sub_id) = true
      ∧ natOfDigits (pyStrip x.sub_id) = n := by
    unfold inSid at hn
    by_cases hd : pyIsDigit (pyStrip x.sub_id) = true
    · rw [if_pos hd] at hn
      exact ⟨hd, by injection hn⟩
    · rw [if_neg hd] at hn
      cases hn
  have hInt : pyIntOpt x.sub_id = some ((n : Int)) := by
    rw [pyIntOpt_digits x.sub_id hdig.1, hdig.2]
  have hsub : (finalize (bs.filter (fatherEq f)).length x).sub_id
      = x.sub_id := rfl
  refine ⟨n, ?_, ?_, ?_⟩
  · rw [hsub]
    exact hInt
  · show (finalize _ x).n_pig = _
    simp [finalize, hInt]
  · intro hlt
    show (finalize _ x).n_pig = _
    simp [finalize, hInt]
    exact pyFormat3_eq n hlt

/-- Witness for C7: father `F`, single member without sub_id; it gets
sub_id `0` and n_pig `000`. -/
theorem c7_n_pig_witness :
    ("F".toList ≠ ([] : Str)) ∧
    (∀ b ∈ (process_balise_groups
        [{ father_balise := "F".toList }]).filter (fatherEq "F".toList),
      ∃ n : Nat, pyIntOpt b.sub_id = some ((n : Int)) ∧
        b.n_pig = pyFormatB ((n : Int)) 3 ∧
        (n < 8 → b.n_pig = natToBin n 3)) :=
  ⟨by decide,
    c7_n_pig [{ father_balise := "F".toList }] "F".toList (by decide)⟩

/-- C8: the three-balise example.  `A` (empty father) is processed as a
singleton — it is not added to the group keyed by its own name — while
`B` and `C` form the group of size 2: `C` keeps sub_id `0`, `B` receives
the smallest unused id `1`, both get `n_total = 2` and `q_link = 1`, and
`A` gets sub_id `0`, `n_total = 1`, `q_link = 0`. -/
theorem c8_three_balise_example :
    process_balise_groups
      [{ name := "A".toList, father_balise := [] },
       { name := "B".toList, father_balise := "A".toList },
       { name := "C".toList, father_balise := "A".toList,
         sub_id := "0".toList }]
    = [{ name := "A".toList, father_balise := [], sub_id := "0".toList,
         n_pig := "000".toList, n_total := "1".toList,
         q_link := "0".toList },
       { name := "B".toList, father_balise := "A".toList,
         sub_id := "1".toList, n_pig := "001".toList,
         n_total := "2".toList, q_link := "1".toList },
       { name := "C".toList, father_balise := "A".toList,
         sub_id := "0".toList, n_pig := "000".toList,
         n_total := "2".toList, q_link := "1".toList }] := by
  decide

/-! ### Simulation-engine lemmas -/

theorem lookup_filter_key {β : Type} (l : List (Str × β)) (q : Str → Bool)
    (k : Str) :
    (l.filter (fun p => q p.1)).lookup k = if q k then l.lookup k else none := by
  induction l with
  | nil => simp [List.lookup]
  | cons p rest ih =>
    obtain ⟨a, b⟩ := p
    by_cases hk : k = a
    · subst hk
      by_cases hq : q k = true
      · rw [List.filter_cons_of_pos (by simpa using hq), if_pos hq]
        simp [List.lookup]
      · rw [List.filter_cons_of_neg (by simpa using hq), if_neg (by simpa using hq),
          ih, if_neg (by simpa using hq)]
    · have hbeq : (k == a) = false := by
        rw [beq_eq_false_iff_ne]
        exact hk
      by_cases hq : q a = true
      · rw [List.filter_cons_of_pos (by simpa using hq)]
        rw [show List.lookup k ((a, b) :: List.filter (fun p => q p.1) rest)
            = List.lookup k (List.filter (fun p => q p.1) rest)
          from by simp [List.lookup, hbeq]]
        rw [ih]
        rw [show List.lookup k ((a, b) :: rest) = List.lookup k rest
          from by simp [List.lookup, hbeq]]
      · rw [List.filter_cons_of_neg (by simpa using hq), ih]
        rw [show List.lookup k ((a, b) :: rest) = List.lookup k rest
          from by simp [List.lookup, hbeq]]

/-- C4: a balise at `b` whose effective CTCS-2 telegram decodes to
`Q_SCALE = 1`, `D_TSR = 0`, `L_TSR = 100`, `V_TSR = 20` appends the
restriction `[b, b + 0.1]` at 100 km/h to the train's restrictions; while
the train's location lies in that window `check_restrictions` caps the
current speed limit at `min(base_speed, 100)`, and past `b + 0.1` the
restriction is dropped and the limit reverts to `base_speed`.  (Python's
floats are modelled as exact rationals.) -/
theorem c4_ctcs2_restriction (line_max : ℚ) (eff : List (Str × Str)) (b : ℚ)
    (t0 : Train) (tel : Str) (t1 : Train)
    (h5 : eff.lookup "CTCS-5".toList = none)
    (h27 : eff.lookup "ETCS-27".toList = none)
    (h2 : eff.lookup "CTCS-2".toList = some tel)
    (hlen : 8 < tel.length)
    (_hbin : ∀ c ∈ tel, c = '0' ∨ c = '1')
    (hqs : ((decode_packet "CTCS-2".toList tel).fieldsOf.lookup
        "Q_SCALE".toList) = some 1)
    (hdt : ((decode_packet "CTCS-2".toList tel).fieldsOf.lookup
        "D_TSR".toList) = some 0)
    (hlt : ((decode_packet "CTCS-2".toList tel).fieldsOf.lookup
        "L_TSR".toList) = some 100)
    (hvt : ((decode_packet "CTCS-2".toList tel).fieldsOf.lookup
        "V_TSR".toList) = some 20)
    (hrestr : t0.active_restrictions = [])
    (ht1 : t1 = handle_balise_pass line_max eff b t0) :
    t1.active_restrictions
        = [⟨"CTCS-2".toList, b, some (b + 1/10), 100⟩] ∧
    t1.base_speed = t0.base_speed ∧
    (∀ loc : ℚ, b ≤ loc → loc ≤ b + 1/10 →
      (check_restrictions
          { t1 with current_location := loc }).current_speed_limit
        = min t0.base_speed 100) ∧
    (∀ loc : ℚ, b + 1/10 < loc →
      (check_restrictions
          { t1 with current_location := loc }).current_speed_limit
          = t0.base_speed ∧
      (check_restrictions
          { t1 with current_location := loc }).active_restrictions = []) := by
  have harith1 : b + ((0 : Nat) : ℚ) * get_q_scale_factor 1 / 1000 = b := by
    simp [get_q_scale_factor]
  have harith2 : b + ((0 : Nat) : ℚ) * get_q_scale_factor 1 / 1000
      + ((100 : Nat) : ℚ) * get_q_scale_factor 1 / 1000 = b + 1/10 := by
    simp [get_q_scale_factor]
    norm_num
  have hcomp : t1 = { t0 with active_restrictions :=
      [⟨"CTCS-2".toList, b, some (b + 1/10), 100⟩] } := by
    rw [ht1]
    unfold handle_balise_pass
    rw [h5, h2, h27]
    simp only [Option.isSome_none, Bool.false_eq_true, if_false,
      if_pos hlen, hqs, hdt, hlt, hvt, Option.getD_some]
    rw [hrestr]
    simp only [List.nil_append]
    rw [harith1] at *
    simp [harith1, harith2]
    norm_num [get_q_scale_factor]
  refine ⟨by rw [hcomp], by rw [hcomp], ?_, ?_⟩
  · intro loc hge hle
    rw [hcomp]
    unfold check_restrictions
    simp only [List.filter_cons, List.filter_nil]
    rw [show (decide (loc ≤ b + 1/10)) = true from by simpa using hle]
    simp only [if_pos, List.foldl_cons, List.foldl_nil]
    by_cases hcap : (100 : ℚ) < t0.base_speed
    · rw [if_pos ⟨hge, hcap⟩]
      rw [min_eq_right (le_of_lt hcap)]
    · rw [if_neg (by
        rintro ⟨-, hc⟩
        exact hcap hc)]
      rw [min_eq_left (by linarith)]
  · intro loc hgt
    rw [hcomp]
    unfold check_restrictions
    simp only [List.filter_cons, List.filter_nil]
    rw [show (decide (loc ≤ b + 1/10)) = false from by
      simp only [decide_eq_false_iff_not]
      linarith]
    simp

/-- Witness for C4: a concrete CTCS-2 telegram at balise km 2 on a train
with base speed 300. -/
theorem c4_ctcs2_restriction_witness :
    ((decode_packet "CTCS-2".toList c4_telegram).fieldsOf.lookup
        "Q_SCALE".toList = some 1) ∧
    ((decode_packet "CTCS-2".toList c4_telegram).fieldsOf.lookup
        "D_TSR".toList = some 0) ∧
    ((decode_packet "CTCS-2".toList c4_telegram).fieldsOf.lookup
        "L_TSR".toList = some 100) ∧
    ((decode_packet "CTCS-2".toList c4_telegram).fieldsOf.lookup
        "V_TSR".toList = some 20) ∧
    ((handle_balise_pass 350 [("CTCS-2".toList, c4_telegram)] 2
        { base_speed := 300 }).active_restrictions
      = [⟨"CTCS-2".toList, 2, some (2 + 1/10), 100⟩] ∧
     (handle_balise_pass 350 [("CTCS-2".toList, c4_telegram)] 2
        { base_speed := 300 }).base_speed
      = ({ base_speed := 300 } : Train).base_speed ∧
     (∀ loc : ℚ, 2 ≤ loc → loc ≤ 2 + 1/10 →
       (check_restrictions
           { handle_balise_pass 350 [("CTCS-2".toList, c4_telegram)] 2
               { base_speed := 300 } with
             current_location := loc }).current_speed_limit
         = min ({ base_speed := 300 } : Train).base_speed 100) ∧
     (∀ loc : ℚ, 2 + 1/10 < loc →
       (check_restrictions
           { handle_balise_pass 350 [("CTCS-2".toList, c4_telegram)] 2
               { base_speed := 300 } with
             current_location := loc }).current_speed_limit
           = ({ base_speed := 300 } : Train).base_speed ∧
       (check_restrictions
           { handle_balise_pass 350 [("CTCS-2".toList, c4_telegram)] 2
               { base_speed := 300 } with
             current_location := loc }).active_restrictions = [])) :=
  ⟨by decide, by decide, by decide, by decide,
    c4_ctcs2_restriction 350 [("CTCS-2".toList, c4_telegram)] 2
      { base_speed := 300 } c4_telegram _
      (by decide) (by decide) (by decide) (by decide) (by decide)
      (by decide) (by decide) (by decide) (by decide) rfl rfl⟩

/-- C6: when a train passes a balise whose effective ETCS-27 telegram
decodes with `V_STATIC = v`, the train's base speed becomes the line's
configured maximum if `v = 127` and `v * 5` otherwise — immediately, and
regardless of the decoded `D_STATIC` distance offset (which the code
reads but never uses to delay application). -/
theorem c6_etcs27_base_speed (line_max : ℚ) (eff : List (Str × Str)) (b : ℚ)
    (t0 : Train) (tel : Str) (v : Nat)
    (h27 : eff.lookup "ETCS-27".toList = some tel)
    (hlen : 8 < tel.length)
    (_hbin : ∀ c ∈ tel, c = '0' ∨ c = '1')
    (hv : (decode_packet "ETCS-27".toList tel).fieldsOf.lookup
        "V_STATIC".toList = some v) :
    (handle_balise_pass line_max eff b t0).base_speed
      = if v = 127 then line_max else ((v * 5 : Nat) : ℚ) := by
  unfold handle_balise_pass
  simp only [h27, if_pos hlen, hv, Option.getD_some]
  by_cases h127 : v = 127
  · simp [h127]
  · simp [h127]

/-- Witness for C6: a concrete ETCS-27 telegram with `V_STATIC = 40` and
a nonzero `D_STATIC = 7`; the base speed becomes 200 immediately. -/
theorem c6_etcs27_base_speed_witness :
    ((decode_packet "ETCS-27".toList c6_telegram).fieldsOf.lookup
        "V_STATIC".toList = some 40) ∧
    ((decode_packet "ETCS-27".toList c6_telegram).fieldsOf.lookup
        "D_STATIC".toList = some 7) ∧
    (handle_balise_pass 350 [("ETCS-27".toList, c6_telegram)] 2
        { base_speed := 300 }).base_speed
      = if (40 : Nat) = 127 then (350 : ℚ) else (((40 * 5 : Nat)) : ℚ) :=
  ⟨by decide, by decide,
    c6_etcs27_base_speed 350 [("ETCS-27".toList, c6_telegram)] 2
      { base_speed := 300 } c6_telegram 40
      (by decide) (by decide) (by decide) (by decide)⟩

/-- C5: for a balise whose CTCS-5 field is configured non-empty, if no
train in the roster authorizes GREEN (in particular an empty roster, or
one with no relevant train), the authorization engine returns the
balise's record with every other known packet-type key removed while all
other keys — headers and the CTCS-5 key — are kept unchanged. -/
theorem c5_red_content (stations : List (Str × ℚ))
    (passTimes : List (Nat × ℚ)) (trains : List Train) (idx : Nat)
    (balise : List (Str × Str)) (b_loc now : ℚ) (v : Str)
    (h5 : balise.lookup "CTCS-5".toList = some v)
    (hnb : ¬ (pyStrip v = []))
    (hauth : ∀ t ∈ trains, trainAuth stations passTimes idx
        ((balise.lookup "name".toList).getD []) b_loc now t = false) :
    (∀ k ∈ PACKET_TYPE_MAP_keys, k ≠ "CTCS-5".toList →
      (get_effective_balise_packets stations passTimes trains idx balise
          b_loc now).lookup k = none) ∧
    (∀ k : Str, (k ∉ PACKET_TYPE_MAP_keys ∨ k = "CTCS-5".toList) →
      (get_effective_balise_packets stations passTimes trains idx balise
          b_loc now).lookup k = balise.lookup k) := by
  have hany : trains.any (trainAuth stations passTimes idx
      ((balise.lookup "name".toList).getD []) b_loc now) = false := by
    rw [Bool.eq_false_iff]
    intro hcontra
    rw [List.any_eq_true] at hcontra
    obtain ⟨t, ht, hp⟩ := hcontra
    rw [hauth t ht] at hp
    cases hp
  have hout : get_effective_balise_packets stations passTimes trains idx
      balise b_loc now
      = balise.filter (fun p =>
          !(decide (p.1 ∈ PACKET_TYPE_MAP_keys) && (p.1 != "CTCS-5".toList))) := by
    unfold get_effective_balise_packets
    rw [h5]
    simp only [if_neg hnb, hany, Bool.false_eq_true, if_false]
  rw [hout]
  constructor
  · intro k hmem hne
    rw [lookup_filter_key balise
      (fun a => !(decide (a ∈ PACKET_TYPE_MAP_keys) && (a != "CTCS-5".toList))) k]
    have hcond : (!(decide (k ∈ PACKET_TYPE_MAP_keys)
        && (k != "CTCS-5".toList))) = false := by
      rw [decide_eq_true hmem, bne_iff_ne.mpr hne]
      rfl
    show (if (!(decide (k ∈ PACKET_TYPE_MAP_keys)
        && (k != "CTCS-5".toList))) = true
      then List.lookup k balise else none) = none
    rw [hcond]
    simp
  · intro k hk
    rw [lookup_filter_key balise
      (fun a => !(decide (a ∈ PACKET_TYPE_MAP_keys) && (a != "CTCS-5".toList))) k]
    have hcond : (!(decide (k ∈ PACKET_TYPE_MAP_keys)
        && (k != "CTCS-5".toList))) = true := by
      rcases hk with hk | hk
      · rw [decide_eq_false hk]
        rfl
      · subst hk
        decide
    show (if (!(decide (k ∈ PACKET_TYPE_MAP_keys)
        && (k != "CTCS-5".toList))) = true
      then List.lookup k balise else none) = List.lookup k balise
    rw [hcond]
    simp

/-- Witness for C5: a balise with non-blank CTCS-5 and an ETCS-5 packet,
an empty train roster. -/
theorem c5_red_content_witness :
    (([("name".toList, "X".toList), ("CTCS-5".toList, "1".toList),
       ("ETCS-5".toList, "101".toList)] : List (Str × Str)).lookup
        "CTCS-5".toList = some "1".toList) ∧
    (¬ (pyStrip "1".toList = [])) ∧
    ((∀ k ∈ PACKET_TYPE_MAP_keys, k ≠ "CTCS-5".toList →
      (get_effective_balise_packets [] [] [] 0
          [("name".toList, "X".toList), ("CTCS-5".toList, "1".toList),
           ("ETCS-5".toList, "101".toList)] 0 0).lookup k = none) ∧
     (∀ k : Str, (k ∉ PACKET_TYPE_MAP_keys ∨ k = "CTCS-5".toList) →
      (get_effective_balise_packets [] [] [] 0
          [("name".toList, "X".toList), ("CTCS-5".toList, "1".toList),
           ("ETCS-5".toList, "101".toList)] 0 0).lookup k
        = ([("name".toList, "X".toList), ("CTCS-5".toList, "1".toList),
            ("ETCS-5".toList, "101".toList)] : List (Str × Str)).lookup k)) :=
  ⟨by decide, by decide,
    c5_red_content [] [] [] 0
      [("name".toList, "X".toList), ("CTCS-5".toList, "1".toList),
       ("ETCS-5".toList, "101".toList)] 0 0 "1".toList
      (by decide) (by decide) (fun t ht => absurd ht (List.not_mem_nil t))⟩
